import Mathlib

/-!
Verification of the streaming CSV matching and deduplication engine of the
`oms_tool` repository (tools `db_filter_by_sku/filter_by_sku.py` and
`unique_values/unique_values.py`).

Python strings are embedded as lists of characters (`Str`), Python `set` as a
duplicate-free list built by `sinsert`, Python `dict` as an association list,
and a parsed CSV file as its header plus its list of rows.  Each Lean
definition mirrors the corresponding Python function of the source.
-/

/-- Python strings, embedded as lists of characters. -/
abbrev Str := List Char

/-- Embed a Lean string literal into the `Str` model. -/
def str (s : String) : Str := s.data

/-- ASCII case folding of one character, modelling Python `str.lower` on the
character range the tools use. -/
def toLowerChar (c : Char) : Char :=
  if 65 ≤ c.toNat ∧ c.toNat ≤ 90 then Char.ofNat (c.toNat + 32) else c

/-- Python `str.lower()`. -/
def lowerStr (s : Str) : Str := s.map toLowerChar

/-- Python `str.strip()`: remove leading and trailing whitespace. -/
def trim (s : Str) : Str :=
  ((s.dropWhile Char.isWhitespace).reverse.dropWhile Char.isWhitespace).reverse

/-- Python lexicographic string comparison `a <= b`, by code point. -/
def strLe : Str → Str → Bool
  | [], _ => true
  | _ :: _, [] => false
  | a :: s, b :: t =>
    if a.toNat < b.toNat then true
    else if b.toNat < a.toNat then false
    else strLe s t

/-- Python `s.lower() if case_insensitive else s`, applied to an
already-stripped value: the normalization step shared by both tools. -/
def normCase (caseInsensitive : Bool) (s : Str) : Str :=
  if caseInsensitive then lowerStr s else s

/-- Add an element to a Python set modelled as a duplicate-free list. -/
def sinsert (x : Str) (s : List Str) : List Str :=
  if x ∈ s then s else s ++ [x]

namespace FilterBySku

/-- A CSV row as produced by `csv.DictReader`: an association list from column
name to cell value. -/
abbrev Row := List (Str × Str)

/-- Association-list lookup, modelling Python `dict.get`. -/
def alookup : List (Str × Str) → Str → Option Str
  | [], _ => none
  | (k, v) :: rest, key => if k = key then some v else alookup rest key

/-- Python `(row.get(col) or "")` / `row.get(col, "")`: a missing field reads
as the empty string. -/
def getv (row : Row) (k : Str) : Str := (alookup row k).getD []

/-- The key-list file consumed by `read_sku_list`, as seen after parsing:
the `csv.DictReader` header (`fieldnames`) and rows, the raw lines of the
same file, and whether the structured parse raises `csv.Error`. -/
structure SkuFile where
  fieldnames : Option (List Str)
  rows : List Row
  lines : List Str
  csvError : Bool

/-- One literal CLI value added to the SKU set: stripped, dropped when empty,
normalized (`filter_by_sku.py` lines 28-31). -/
def litStep (ci : Bool) (acc : List Str) (v : Str) : List Str :=
  let s := trim v
  if s ≠ [] then sinsert (normCase ci s) acc else acc

/-- One structured-mode file row added to the SKU set (`filter_by_sku.py`
lines 42-45). -/
def rowStep (ci : Bool) (col : Str) (acc : List Str) (r : Row) : List Str :=
  let s := trim (getv r col)
  if s ≠ [] then sinsert (normCase ci s) acc else acc

/-- One line-mode file line added to the SKU set: stripped, dropped when blank
or beginning with `#` (`filter_by_sku.py` lines 49-52). -/
def lineStep (ci : Bool) (acc : List Str) (line : Str) : List Str :=
  let s := trim line
  if s ≠ [] ∧ s.head? ≠ some '#' then sinsert (normCase ci s) acc else acc

/-- The set contributed by the literal CLI values alone (`filter_by_sku.py`
lines 25-31): the state of `values` before the file is read. -/
def literalSet (skuValues : Option (List Str)) (caseInsensitive : Bool) : List Str :=
  match skuValues with
  | none => []
  | some vs => vs.foldl (litStep caseInsensitive) []

/-- `read_sku_list` of `filter_by_sku.py`: merge literal CLI values and
file-sourced values into one normalized match set.  Starting from the literal
values, the file is read in structured mode when its detected header contains
the hint column, and in line-oriented mode otherwise or when structured
parsing fails. -/
def read_sku_list (skuValues : Option (List Str)) (skuFile : Option SkuFile)
    (skuFileColumn : Str) (caseInsensitive : Bool) : List Str :=
  match skuFile with
  | none => literalSet skuValues caseInsensitive
  | some f =>
    if f.csvError then
      f.lines.foldl (lineStep caseInsensitive) (literalSet skuValues caseInsensitive)
    else
      match f.fieldnames with
      | some fns =>
        if fns ≠ [] ∧ skuFileColumn ∈ fns then
          f.rows.foldl (rowStep caseInsensitive skuFileColumn)
            (literalSet skuValues caseInsensitive)
        else f.lines.foldl (lineStep caseInsensitive) (literalSet skuValues caseInsensitive)
      | none => f.lines.foldl (lineStep caseInsensitive) (literalSet skuValues caseInsensitive)

/-- The set contributed by the key-list file alone. -/
def fileSet (f : SkuFile) (skuFileColumn : Str) (caseInsensitive : Bool) : List Str :=
  if f.csvError then f.lines.foldl (lineStep caseInsensitive) []
  else
    match f.fieldnames with
    | some fns =>
      if fns ≠ [] ∧ skuFileColumn ∈ fns then
        f.rows.foldl (rowStep caseInsensitive skuFileColumn) []
      else f.lines.foldl (lineStep caseInsensitive) []
    | none => f.lines.foldl (lineStep caseInsensitive) []

/-- The line-oriented fallback set of a key-list file. -/
def lineSet (f : SkuFile) (caseInsensitive : Bool) : List Str :=
  f.lines.foldl (lineStep caseInsensitive) []

/-- The configuration of `stream_filter_csv` (its non-file parameters). -/
structure FilterConfig where
  articleCol : Str
  matchValues : List Str
  plantCol : Option Str
  plantValues : Option (List Str)
  selectColumns : Option (List Str)
  caseInsensitive : Bool
  invert : Bool
deriving DecidableEq

/-- The per-row match decision of `stream_filter_csv` (lines 107-115):
normalize the primary value, test membership (an empty key never matches),
then apply the secondary plant filter when one is configured. -/
def rowIsMatch (cfg : FilterConfig) (row : Row) : Bool :=
  let key := normCase cfg.caseInsensitive (trim (getv row cfg.articleCol))
  let isMatch := if key ≠ [] then decide (key ∈ cfg.matchValues) else false
  match cfg.plantValues, cfg.plantCol with
  | some pv, some pc =>
    if isMatch && decide (pc ≠ []) then
      let pkey := normCase cfg.caseInsensitive (trim (getv row pc))
      if pkey ≠ [] then decide (pkey ∈ pv) else false
    else isMatch
  | _, _ => isMatch

/-- The keep decision of `stream_filter_csv` (lines 116-119): the match
decision, negated when `invert` is set. -/
def rowKeep (cfg : FilterConfig) (row : Row) : Bool :=
  if cfg.invert then !(rowIsMatch cfg row) else rowIsMatch cfg row

/-- The secondary-column validation of `stream_filter_csv` (line 92): it fires
only when the plant value set is non-empty, the plant column name is a
non-empty string, and that column is absent from the header. -/
def plantValidationFails (cfg : FilterConfig) (header : List Str) : Bool :=
  match cfg.plantValues, cfg.plantCol with
  | some pv, some pc => decide (pv ≠ []) && decide (pc ≠ []) && decide (pc ∉ header)
  | _, _ => false

/-- Output-column resolution of `stream_filter_csv` (lines 98-101): an
explicit non-wildcard selection, else all header fields. -/
def resolveOutFields (selectColumns : Option (List Str)) (header : List Str) : List Str :=
  match selectColumns with
  | some cols => if cols ≠ [] ∧ cols ≠ [str "*"] then cols else header
  | none => header

/-- Projection of a kept row (line 122): copy exactly the output fields, a
field the row does not define becoming the empty string. -/
def projectRow (outFields : List Str) (row : Row) : Row :=
  outFields.map (fun k => (k, getv row k))

/-- The result of a `stream_filter_csv` run: a raised `ValueError`, or the
written header, the written data rows, and the returned count. -/
inductive FilterResult where
  | error (msg : Str)
  | ok (fields : List Str) (rows : List Row) (written : Nat)
deriving DecidableEq

/-- `stream_filter_csv` of `filter_by_sku.py` on an already-parsed input CSV
(header and data rows): validate the required columns, then stream every row
through the keep decision, writing kept rows projected to the output fields
and counting them. -/
def stream_filter_csv (cfg : FilterConfig) (header : List Str) (rows : List Row) :
    FilterResult :=
  if cfg.articleCol ∉ header then
    .error (str "Input CSV missing required article column")
  else if plantValidationFails cfg header then
    .error (str "Input CSV missing required plant column")
  else
    let outFields := resolveOutFields cfg.selectColumns header
    let kept := rows.filter (rowKeep cfg)
    .ok outFields (kept.map (projectRow outFields)) kept.length

/-- The post-parse CLI arguments of the filter tool (`main`, lines 181-217). -/
structure Args where
  skuValues : Option (List Str)
  skuFile : Option SkuFile
  skuFileColumn : Str
  articleCol : Str
  plantCol : Str
  plant : Option (List Str)
  columns : Str
  caseInsensitive : Bool
  invert : Bool

/-- The set comprehension of `main` lines 197-200: each `--plant` value
surviving `if p and p.strip()` is stripped and normalized into the set. -/
def plantFold (ci : Bool) (ps : List Str) : List Str :=
  ps.foldl
    (fun acc p => if p ≠ [] ∧ trim p ≠ [] then sinsert (normCase ci (trim p)) acc else acc)
    []

/-- The plant value set constructed by `main` (lines 195-201): an absent or
empty `--plant` list leaves `None`, and an empty comprehension result is
coerced to `None` by `or None`. -/
def computePlantValues (plant : Option (List Str)) (ci : Bool) : Option (List Str) :=
  match plant with
  | none => none
  | some ps =>
    if ps = [] then none
    else if plantFold ci ps = [] then none
    else some (plantFold ci ps)

/-- Splitting a `Str` on commas, modelling Python `str.split(",")`. -/
def splitComma (s : Str) : List Str :=
  match s with
  | [] => [[]]
  | c :: rest =>
    let tails := splitComma rest
    if c = ',' then [] :: tails
    else
      match tails with
      | [] => [[c]]
      | t :: ts => (c :: t) :: ts

/-- The `--columns` resolution of `main` (lines 203-205, 214): split on commas
and strip, a sole `*` meaning the wildcard, passed as `None` to
`stream_filter_csv`. -/
def resolveCols (columns : Str) : Option (List Str) :=
  let cols := if columns ≠ [] then (splitComma columns).map trim else [str "*"]
  if cols = [str "*"] then none else some cols

/-- The outcome of the filter tool `main` after argument parsing: the distinct
no-match-criteria failure (exit code 2), a successful run with its written
count (exit code 0), or a caught exception (exit code 1). -/
inductive MainResult where
  | emptyCriteria
  | success (written : Nat)
  | failure (msg : Str)
deriving DecidableEq

/-- The post-parse logic of `main` (lines 181-222) on an already-parsed input
CSV: build the match set, fail distinctly when it is empty, otherwise build
the plant set and column selection and stream the filter. -/
def main_logic (a : Args) (header : List Str) (rows : List Row) : MainResult :=
  if read_sku_list a.skuValues a.skuFile a.skuFileColumn a.caseInsensitive = [] then
    .emptyCriteria
  else
    match stream_filter_csv
      ⟨a.articleCol, read_sku_list a.skuValues a.skuFile a.skuFileColumn a.caseInsensitive,
        some a.plantCol, computePlantValues a.plant a.caseInsensitive,
        resolveCols a.columns, a.caseInsensitive, a.invert⟩ header rows with
    | .ok _ _ written => .success written
    | .error e => .failure e

end FilterBySku

namespace UniqueValues

open FilterBySku (Row alookup getv)

/-- The accumulator state of `read_unique_values` (lines 32-34): occurrence
counts, first-seen key order, and the display value fixed at first sight. -/
structure UState where
  counts : List (Str × Nat)
  order : List Str
  display : List (Str × Str)
deriving DecidableEq

/-- Association-list lookup for the counts table, modelling `dict` access. -/
def clookup : List (Str × Nat) → Str → Option Nat
  | [], _ => none
  | (k, v) :: rest, key => if k = key then some v else clookup rest key

/-- Python `counts[key] += 1` on the association-list model of the dict. -/
def bump (cs : List (Str × Nat)) (key : Str) : List (Str × Nat) :=
  cs.map (fun p => if p.1 = key then (p.1, p.2 + 1) else p)

/-- One accumulation step of `read_unique_values` (lines 62-71 and the
mirrored no-header loops): strip the value, skip it when empty, normalize it
into a key, record first sight, and count the occurrence. -/
def ustep (ci : Bool) (st : UState) (raw : Str) : UState :=
  if trim raw = [] then st
  else if (clookup st.counts (normCase ci (trim raw))).isNone then
    ⟨bump (st.counts ++ [(normCase ci (trim raw), 0)]) (normCase ci (trim raw)),
      st.order ++ [normCase ci (trim raw)],
      st.display ++ [(normCase ci (trim raw), trim raw)]⟩
  else
    ⟨bump st.counts (normCase ci (trim raw)), st.order, st.display⟩

/-- The whole accumulation pass over the extracted raw column values. -/
def processVals (ci : Bool) (vals : List Str) : UState :=
  vals.foldl (ustep ci) ⟨[], [], []⟩

/-- The normalized key a raw value contributes, or `[]` when it is skipped. -/
def normKey (ci : Bool) (raw : Str) : Str := normCase ci (trim raw)

/-- The total occurrence count of a key among the raw values. -/
def countOcc (ci : Bool) (vals : List Str) (k : Str) : Nat :=
  vals.countP (fun v => trim v ≠ [] ∧ normKey ci v = k)

/-- The trimmed display form of the first occurrence of a key. -/
def firstDisplay (ci : Bool) (vals : List Str) (k : Str) : Option Str :=
  match vals with
  | [] => none
  | v :: vs =>
    if trim v ≠ [] ∧ normKey ci v = k then some (trim v) else firstDisplay ci vs k

/-- The post-pass selection of `read_unique_values` (lines 87-90): keep every
first-seen key, or only those whose final count is exactly 1, and emit their
display values in first-seen order. -/
def selectValues (exactlyOnce : Bool) (st : UState) : List Str :=
  if exactlyOnce then
    (st.order.filter (fun k => (clookup st.counts k).getD 0 = 1)).map
      (fun k => (alookup st.display k).getD [])
  else st.order.map (fun k => (alookup st.display k).getD [])

/-- The sort key of line 93: the case-folded form when `case_insensitive`. -/
def sortKey (ci : Bool) (s : Str) : Str := if ci then lowerStr s else s

/-- Python `sorted(values, key=...)` (line 93): a stable ascending sort by the
sort key. -/
def sortValues (ci : Bool) (values : List Str) : List Str :=
  values.mergeSort (fun a b => strLe (sortKey ci a) (sortKey ci b))

/-- The input file of `read_unique_values`, as seen after parsing: the
`csv.DictReader` header and rows, and the raw `csv.reader` rows used by the
no-header paths. -/
structure UFile where
  fieldnames : Option (List Str)
  drows : List Row
  rrows : List (List Str)

/-- First-positional-field extraction of the no-header loops (lines 43-46,
74-77): skip empty records, read the first field. -/
def firstColVals (rrows : List (List Str)) : List Str :=
  (rrows.filter (fun r => r ≠ [])).map (fun r => r.headD [])

/-- The result of a `read_unique_values` run: a raised `ValueError`, or the
emitted value list. -/
inductive UResult where
  | error (msg : Str)
  | ok (values : List Str)
deriving DecidableEq

/-- Column resolution and extraction of `read_unique_values` (lines 37-61,
72-77): without a header (or when none is detected) read the first positional
field of every record; with a header resolve the target column (explicitly
requested, else the first header field) and fail when it is absent. -/
def resolveVals (file : UFile) (column : Option Str) (noHeader : Bool) :
    Except Str (List Str) :=
  if !noHeader then
    match file.fieldnames with
    | none => .ok (firstColVals file.rrows)
    | some fns =>
      let col := match column with
        | some c => if c = [] then fns.headD (str "value") else c
        | none => fns.headD (str "value")
      if col ∉ fns then .error (str "Column not found in header")
      else .ok (file.drows.map (fun r => getv r col))
  else .ok (firstColVals file.rrows)

/-- `read_unique_values` of `unique_values.py` on an already-parsed input:
extract the target column values, accumulate counts and first-seen display
values in one pass, select per the exactly-once policy, optionally sort. -/
def read_unique_values (file : UFile) (column : Option Str)
    (noHeader ci sortAscending exactlyOnce : Bool) : UResult :=
  match resolveVals file column noHeader with
  | .error e => .error e
  | .ok vals =>
    .ok (if sortAscending then sortValues ci (selectValues exactlyOnce (processVals ci vals))
      else selectValues exactlyOnce (processVals ci vals))

/-- The key column of an association table. -/
def keysOf {α : Type} (l : List (Str × α)) : List Str := l.map Prod.fst

/-- The invariant of the accumulator state: the first-seen order list holds
each key at most once, its keys coincide with the key sets of the counts and
display tables, and every recorded count is at least 1. -/
def UInv (st : UState) : Prop :=
  st.order.Nodup ∧
  (∀ k, k ∈ st.order ↔ k ∈ keysOf st.counts) ∧
  (∀ k, k ∈ keysOf st.counts ↔ k ∈ keysOf st.display) ∧
  (∀ p ∈ st.counts, 1 ≤ p.2)

/-- The strengthened accumulator invariant used to analyse the selection and
sorting stages: the three tables list the keys in the same first-seen order
without duplicates, all counts are at least 1, and every display entry is a
non-empty value that normalizes back to its key. -/
def StrongInv (ci : Bool) (st : UState) : Prop :=
  st.order = keysOf st.counts ∧
  st.order = keysOf st.display ∧
  st.order.Nodup ∧
  (∀ p ∈ st.counts, 1 ≤ p.2) ∧
  (∀ p ∈ st.display, normCase ci p.2 = p.1 ∧ p.2 ≠ [])

end UniqueValues

/-! ## Concrete fixtures from the testable-properties scenarios -/

namespace Fixtures

open FilterBySku UniqueValues

/-- The header of the scenario input CSV. -/
def wHeader : List Str := [str "article", str "plant", str "qty"]

/-- Scenario input row 1: `(article=SKU1, plant=SYD, qty=5)`. -/
def wRow1 : Row := [(str "article", str "SKU1"), (str "plant", str "SYD"), (str "qty", str "5")]

/-- Scenario input row 2: `(article=SKU2, plant=MEL, qty=3)`. -/
def wRow2 : Row := [(str "article", str "SKU2"), (str "plant", str "MEL"), (str "qty", str "3")]

/-- Scenario input row 3: `(article=SKU1, plant=MEL, qty=2)`. -/
def wRow3 : Row := [(str "article", str "SKU1"), (str "plant", str "MEL"), (str "qty", str "2")]

/-- The scenario input rows. -/
def wRows : List Row := [wRow1, wRow2, wRow3]

/-- Scenario A configuration: matchSet {SKU1}, no secondary filter. -/
def wCfgA : FilterConfig :=
  ⟨str "article", [str "SKU1"], some (str "plant"), none, none, false, false⟩

/-- Scenario B configuration: matchSet {SKU1}, secondarySet {SYD}. -/
def wCfgB : FilterConfig :=
  ⟨str "article", [str "SKU1"], some (str "plant"), some [str "SYD"], none, false, false⟩

/-- Scenario E input: a headerless file with column values B, a, b. -/
def eFile : UFile := ⟨none, [], [[str "B"], [str "a"], [str "b"]]⟩

/-- Scenario D input: a headered file with column values a, b, a, c. -/
def dFile : UFile :=
  ⟨some [str "v"],
    [[(str "v", str "a")], [(str "v", str "b")], [(str "v", str "a")], [(str "v", str "c")]],
    []⟩

/-- A key-list file whose header lacks the hint column, so line-oriented mode
applies: a comment line, a padded value, a blank line, a second value. -/
def kFileLine : SkuFile :=
  ⟨some [str "foo"], [], [str "# comment", str " A1 ", str "", str "A2"], false⟩

/-- A key-list file whose header contains the hint column, so structured mode
applies: one real value and one blank value under `article`. -/
def kFileCsv : SkuFile :=
  ⟨some [str "article", str "x"],
    [[(str "article", str "A1")], [(str "article", str " ")]],
    [str "article,x"], false⟩

end Fixtures

/-! ## Helper lemmas about the filter engine -/

namespace FilterBySku

/-- Changing only `invert` does not change the per-row match decision. -/
theorem rowIsMatch_invert (cfg : FilterConfig) (b : Bool) (row : Row) :
    rowIsMatch {cfg with invert := b} row = rowIsMatch cfg row := rfl

/-- With `invert = true`, the keep decision is the negated match decision of
the non-inverted configuration. -/
theorem rowKeep_invert_true (cfg : FilterConfig) (row : Row) :
    rowKeep {cfg with invert := true} row = !(rowIsMatch cfg row) := rfl

/-- Inversion of a successful `stream_filter_csv` run into its components. -/
theorem stream_filter_csv_ok {cfg : FilterConfig} {header : List Str} {rows : List Row}
    {f : List Str} {o : List Row} {n : Nat}
    (h : stream_filter_csv cfg header rows = .ok f o n) :
    f = resolveOutFields cfg.selectColumns header ∧
    o = (rows.filter (rowKeep cfg)).map (projectRow f) ∧
    n = (rows.filter (rowKeep cfg)).length := by
  unfold stream_filter_csv at h
  split at h
  · exact absurd h (by simp)
  · split at h
    · exact absurd h (by simp)
    · injection h with h1 h2 h3
      subst h1
      exact ⟨rfl, h2.symm, h3.symm⟩

/-- Validation and output-field resolution ignore the `invert` flag. -/
theorem stream_filter_csv_invert_ok {cfg : FilterConfig} {header : List Str}
    {rows : List Row} {f : List Str} {o : List Row} {n : Nat} (b : Bool)
    (h : stream_filter_csv cfg header rows = .ok f o n) :
    stream_filter_csv {cfg with invert := b} header rows =
      .ok f ((rows.filter (rowKeep {cfg with invert := b})).map (projectRow f))
        (rows.filter (rowKeep {cfg with invert := b})).length := by
  obtain ⟨h1, _, _⟩ := stream_filter_csv_ok h
  unfold stream_filter_csv at h ⊢
  split at h
  · exact absurd h (by simp)
  · split at h
    · exact absurd h (by simp)
    · rename_i hart hplant
      rw [if_neg (show ¬({cfg with invert := b} : FilterConfig).articleCol ∉ header from hart)]
      rw [if_neg (show ¬plantValidationFails {cfg with invert := b} header = true from hplant)]
      subst h1
      rfl

end FilterBySku

open FilterBySku UniqueValues Fixtures

/-- C1: for every input CSV, match set, column configuration and normalization
setting, running the row filter with `invert = false` and with `invert = true`
partitions the input data rows exactly: the two written counts add up to the
number of input rows, every input row is kept by exactly one of the two runs,
and each output is exactly the projection of the rows its run keeps, in input
order. -/
theorem filter_invert_complementarity (cfg : FilterConfig) (header : List Str)
    (rows : List Row) (f1 : List Str) (o1 : List Row) (n1 : Nat)
    (f2 : List Str) (o2 : List Row) (n2 : Nat)
    (hinv : cfg.invert = false)
    (h1 : stream_filter_csv cfg header rows = .ok f1 o1 n1)
    (h2 : stream_filter_csv {cfg with invert := true} header rows = .ok f2 o2 n2) :
    n1 + n2 = rows.length ∧
    (∀ r ∈ rows, rowKeep cfg r = true ↔ ¬(rowKeep {cfg with invert := true} r = true)) ∧
    o1 = (rows.filter (rowKeep cfg)).map (projectRow f1) ∧
    o2 = (rows.filter (rowKeep {cfg with invert := true})).map (projectRow f2) := by
  obtain ⟨hf1, ho1, hn1⟩ := stream_filter_csv_ok h1
  obtain ⟨hf2, ho2, hn2⟩ := stream_filter_csv_ok h2
  have hkeep : ∀ r, rowKeep cfg r = rowIsMatch cfg r := by
    intro r; unfold rowKeep; rw [hinv]; rfl
  have hkeepT : ∀ r, rowKeep {cfg with invert := true} r = !(rowIsMatch cfg r) :=
    fun r => rowKeep_invert_true cfg r
  refine ⟨?_, ?_, ho1, ho2⟩
  · have := List.length_eq_length_filter_add (l := rows) (rowIsMatch cfg)
    rw [hn1, hn2]
    have e1 : rows.filter (rowKeep cfg) = rows.filter (rowIsMatch cfg) :=
      List.filter_congr (fun r _ => hkeep r)
    have e2 : rows.filter (rowKeep {cfg with invert := true}) =
        rows.filter (fun r => !(rowIsMatch cfg r)) :=
      List.filter_congr (fun r _ => hkeepT r)
    rw [e1, e2]
    omega
  · intro r _
    rw [hkeep r, hkeepT r]
    cases rowIsMatch cfg r <;> simp

/-- C1 witness: scenarios A and C instantiated — matchSet {SKU1} on the
three-row input, `invert = false` writes rows 1 and 3 and `invert = true`
writes row 2, partitioning the input. -/
theorem filter_invert_complementarity_witness :
    2 + 1 = wRows.length ∧
    (∀ r ∈ wRows, rowKeep wCfgA r = true ↔ ¬(rowKeep {wCfgA with invert := true} r = true)) ∧
    [wRow1, wRow3] = (wRows.filter (rowKeep wCfgA)).map (projectRow wHeader) ∧
    [wRow2] = (wRows.filter (rowKeep {wCfgA with invert := true})).map (projectRow wHeader) :=
  filter_invert_complementarity wCfgA wHeader wRows wHeader [wRow1, wRow3] 2
    wHeader [wRow2] 1 rfl (by decide) (by decide)

/-- C2: for every input CSV and non-inverted filter configuration, the rows
written by `stream_filter_csv` form a subsequence of the (projected) input
row sequence in original order, and the returned written count is at most the
number of input data rows. -/
theorem filter_order_preservation (cfg : FilterConfig) (header : List Str)
    (rows : List Row) (f : List Str) (o : List Row) (n : Nat)
    (hinv : cfg.invert = false)
    (h : stream_filter_csv cfg header rows = .ok f o n) :
    o.Sublist (rows.map (projectRow f)) ∧ n ≤ rows.length ∧ n = o.length := by
  obtain ⟨hf, ho, hn⟩ := stream_filter_csv_ok h
  refine ⟨?_, ?_, ?_⟩
  · rw [ho]
    exact List.Sublist.map (projectRow f) (List.filter_sublist rows)
  · rw [hn]
    exact (List.filter_sublist rows).length_le
  · rw [hn, ho, List.length_map]

/-- C2 witness: scenario A instantiated — the output rows 1 and 3 are a
subsequence of the three projected input rows and the count 2 is at most 3. -/
theorem filter_order_preservation_witness :
    List.Sublist [wRow1, wRow3] (wRows.map (projectRow wHeader)) ∧
    2 ≤ wRows.length ∧ 2 = [wRow1, wRow3].length :=
  filter_order_preservation wCfgA wHeader wRows wHeader [wRow1, wRow3] 2 rfl (by decide)

/-- C3: whenever a secondary filter is configured (a plant value set is
present and the plant column name is non-empty) and the match set does not
contain the empty key, a row is a final match exactly when its normalized
primary value belongs to the match set and its normalized secondary value is
non-empty and belongs to the secondary set; moreover scenario B holds: on the
three-row input with matchSet {SKU1} and secondarySet {SYD} exactly row 1 is
written, with count 1. -/
theorem filter_secondary_conjunction (cfg : FilterConfig) (row : Row)
    (pc : Str) (pv : List Str)
    (hpc : cfg.plantCol = some pc) (hpcne : pc ≠ [])
    (hpv : cfg.plantValues = some pv)
    (hnoEmpty : [] ∉ cfg.matchValues) :
    (rowIsMatch cfg row = true ↔
      (normCase cfg.caseInsensitive (trim (getv row cfg.articleCol)) ∈ cfg.matchValues ∧
       normCase cfg.caseInsensitive (trim (getv row pc)) ≠ [] ∧
       normCase cfg.caseInsensitive (trim (getv row pc)) ∈ pv)) ∧
    stream_filter_csv wCfgB wHeader wRows = .ok wHeader [wRow1] 1 := by
  constructor
  · unfold rowIsMatch
    rw [hpc, hpv]
    by_cases hkey : normCase cfg.caseInsensitive (trim (getv row cfg.articleCol)) = []
    · rw [hkey]
      simp only [ne_eq, not_true_eq_false, if_false]
      constructor
      · intro habs
        simp at habs
      · rintro ⟨hmem, -⟩
        exact absurd hmem hnoEmpty
    · simp only [ne_eq, hkey, not_false_eq_true, if_true, hpcne, decide_eq_true_eq]
      by_cases hmem : normCase cfg.caseInsensitive (trim (getv row cfg.articleCol)) ∈ cfg.matchValues
      · simp only [hmem, true_and]
        rw [if_pos (by simp [hmem, hpcne])]
        by_cases hp : normCase cfg.caseInsensitive (trim (getv row pc)) = []
        · rw [hp]
          simp
        · simp [hp]
      · simp [hmem]
  · decide

/-- C3 witness: the final-match characterization instantiated on scenario B
at input row 3 (primary SKU1 matches, secondary MEL does not), together with
the scenario B output. -/
theorem filter_secondary_conjunction_witness :
    (rowIsMatch wCfgB wRow3 = true ↔
      (normCase wCfgB.caseInsensitive (trim (getv wRow3 wCfgB.articleCol)) ∈ wCfgB.matchValues ∧
       normCase wCfgB.caseInsensitive (trim (getv wRow3 (str "plant"))) ≠ [] ∧
       normCase wCfgB.caseInsensitive (trim (getv wRow3 (str "plant"))) ∈ [str "SYD"])) ∧
    stream_filter_csv wCfgB wHeader wRows = .ok wHeader [wRow1] 1 :=
  filter_secondary_conjunction wCfgB wRow3 (str "plant") [str "SYD"]
    rfl (by decide) rfl (by decide)

/-- C7: a missing primary column, a missing secondary column under a
configured secondary filter, and a missing requested target column in the
uniqueness extractor each fail with a `ValueError` whose result is the same
for every list of data rows — the failure is decided before any data row is
read and before any output record is produced. -/
theorem validation_before_streaming :
    (∀ (cfg : FilterConfig) (header : List Str) (rows : List Row),
      cfg.articleCol ∉ header →
      stream_filter_csv cfg header rows =
        .error (str "Input CSV missing required article column")) ∧
    (∀ (cfg : FilterConfig) (header : List Str) (rows : List Row) (pv : List Str) (pc : Str),
      cfg.plantValues = some pv → pv ≠ [] → cfg.plantCol = some pc → pc ≠ [] →
      pc ∉ header →
      ∃ e, stream_filter_csv cfg header rows = .error e ∧
        ∀ rows2, stream_filter_csv cfg header rows2 = .error e) ∧
    (∀ (fns : List Str) (drows : List Row) (rrows : List (List Str)) (c : Str)
      (ci sortAscending exactlyOnce : Bool),
      c ≠ [] → c ∉ fns →
      read_unique_values ⟨some fns, drows, rrows⟩ (some c) false ci sortAscending exactlyOnce =
        .error (str "Column not found in header")) := by
  refine ⟨?_, ?_, ?_⟩
  · intro cfg header rows hart
    unfold stream_filter_csv
    rw [if_pos hart]
  · intro cfg header rows pv pc hpv hpvne hpc hpcne hmem
    by_cases hart : cfg.articleCol ∈ header
    · refine ⟨str "Input CSV missing required plant column", ?_, ?_⟩ <;>
        first
        | (unfold stream_filter_csv
           rw [if_neg (by simp [hart]), if_pos (by simp [plantValidationFails, hpv, hpc, hpvne, hpcne, hmem])])
        | (intro rows2
           unfold stream_filter_csv
           rw [if_neg (by simp [hart]), if_pos (by simp [plantValidationFails, hpv, hpc, hpvne, hpcne, hmem])])
    · refine ⟨str "Input CSV missing required article column", ?_, ?_⟩
      · unfold stream_filter_csv
        rw [if_pos hart]
      · intro rows2
        unfold stream_filter_csv
        rw [if_pos hart]
  · intro fns drows rrows c ci sortAscending exactlyOnce hcne hcmem
    have h1 : resolveVals ⟨some fns, drows, rrows⟩ (some c) false =
        .error (str "Column not found in header") := by
      show (if (if c = [] then fns.headD (str "value") else c) ∉ fns then
          (.error (str "Column not found in header") : Except Str (List Str))
        else .ok (drows.map (fun r => getv r (if c = [] then fns.headD (str "value") else c)))) =
        .error (str "Column not found in header")
      rw [if_neg hcne, if_pos hcmem]
    unfold read_unique_values
    rw [h1]

/-- C7 witness: the three validation failures instantiated — a header without
`article`, scenario B's configuration against a header without `plant`, and a
uniqueness request for a column absent from the header. -/
theorem validation_before_streaming_witness :
    (stream_filter_csv wCfgB [str "plant"] wRows =
      .error (str "Input CSV missing required article column")) ∧
    (∃ e, stream_filter_csv wCfgB [str "article"] wRows = .error e ∧
      ∀ rows2, stream_filter_csv wCfgB [str "article"] rows2 = .error e) ∧
    (read_unique_values ⟨some [str "value"], [], []⟩ (some (str "zzz")) false false false false =
      .error (str "Column not found in header")) :=
  ⟨validation_before_streaming.1 wCfgB [str "plant"] wRows (by decide),
   validation_before_streaming.2.1 wCfgB [str "article"] wRows [str "SYD"] (str "plant")
     rfl (by decide) rfl (by decide) (by decide),
   validation_before_streaming.2.2 [str "value"] [] [] (str "zzz") false false false
     (by decide) (by decide)⟩

/-- C8: an empty constructed match set makes the filter tool fail with the
distinct no-match-criteria result, identically for every input CSV (so before
any streaming), and this result differs from every successful result — in
particular from a successful run that matches zero rows, which reports
`success 0`. -/
theorem empty_criteria_distinct :
    (∀ (a : Args) (header : List Str) (rows rows2 : List Row),
      read_sku_list a.skuValues a.skuFile a.skuFileColumn a.caseInsensitive = [] →
      main_logic a header rows = .emptyCriteria ∧
      main_logic a header rows = main_logic a header rows2) ∧
    (∀ n : Nat, MainResult.emptyCriteria ≠ MainResult.success n) ∧
    (∀ (a : Args) (header : List Str) (rows : List Row) (f : List Str) (o : List Row),
      read_sku_list a.skuValues a.skuFile a.skuFileColumn a.caseInsensitive ≠ [] →
      stream_filter_csv
        ⟨a.articleCol, read_sku_list a.skuValues a.skuFile a.skuFileColumn a.caseInsensitive,
          some a.plantCol, computePlantValues a.plant a.caseInsensitive,
          resolveCols a.columns, a.caseInsensitive, a.invert⟩ header rows = .ok f o 0 →
      main_logic a header rows = .success 0) := by
  refine ⟨?_, ?_, ?_⟩
  · intro a header rows rows2 hempty
    constructor
    · unfold main_logic
      rw [if_pos hempty]
    · unfold main_logic
      rw [if_pos hempty, if_pos hempty]
  · intro n h
    exact MainResult.noConfusion h
  · intro a header rows f o hne hstream
    unfold main_logic
    rw [if_neg hne, hstream]

/-- C8 witness: an all-blank `--sku` list yields the distinct empty-criteria
result on the scenario input, while a non-matching match set yields a
successful run with count 0. -/
theorem empty_criteria_distinct_witness :
    (main_logic ⟨some [str "  "], none, str "article", str "article", str "plant",
        none, str "*", false, false⟩ wHeader wRows = .emptyCriteria ∧
      main_logic ⟨some [str "  "], none, str "article", str "article", str "plant",
        none, str "*", false, false⟩ wHeader wRows =
      main_logic ⟨some [str "  "], none, str "article", str "article", str "plant",
        none, str "*", false, false⟩ wHeader []) ∧
    MainResult.emptyCriteria ≠ MainResult.success 0 ∧
    main_logic ⟨some [str "NOPE"], none, str "article", str "article", str "plant",
        none, str "*", false, false⟩ wHeader wRows = .success 0 :=
  ⟨empty_criteria_distinct.1 ⟨some [str "  "], none, str "article", str "article",
      str "plant", none, str "*", false, false⟩ wHeader wRows [] (by decide),
   empty_criteria_distinct.2.1 0,
   empty_criteria_distinct.2.2 ⟨some [str "NOPE"], none, str "article", str "article",
      str "plant", none, str "*", false, false⟩ wHeader wRows wHeader [] (by decide) (by decide)⟩

/-- C10: when `--plant` values are supplied but every one of them strips to
the empty string, the constructed plant set is coerced to `None`, and the run
behaves exactly as if no `--plant` argument had been given at all. -/
theorem blank_plant_values_ignored (a : Args) (ps : List Str)
    (header : List Str) (rows : List Row)
    (hp : a.plant = some ps) (hblank : ∀ p ∈ ps, trim p = []) :
    computePlantValues a.plant a.caseInsensitive = none ∧
    main_logic a header rows =
      main_logic ⟨a.skuValues, a.skuFile, a.skuFileColumn, a.articleCol, a.plantCol,
        none, a.columns, a.caseInsensitive, a.invert⟩ header rows := by
  have hfold : ∀ (l : List Str) (acc : List Str), (∀ p ∈ l, trim p = []) →
      l.foldl (fun acc p =>
        if p ≠ [] ∧ trim p ≠ [] then sinsert (normCase a.caseInsensitive (trim p)) acc
        else acc) acc = acc := by
    intro l
    induction l with
    | nil => intro acc _; rfl
    | cons p l ih =>
      intro acc hl
      have hpt : trim p = [] := hl p (List.mem_cons_self p l)
      simp only [List.foldl_cons]
      rw [if_neg (by simp [hpt])]
      exact ih _ (fun q hq => hl q (List.mem_cons_of_mem p hq))
  have hnone : computePlantValues a.plant a.caseInsensitive = none := by
    rw [hp]
    show (if ps = [] then none
      else if plantFold a.caseInsensitive ps = [] then none
      else some (plantFold a.caseInsensitive ps)) = none
    by_cases hps : ps = []
    · rw [if_pos hps]
    · have hpf : plantFold a.caseInsensitive ps = [] := hfold ps [] hblank
      rw [if_neg hps, if_pos hpf]
  refine ⟨hnone, ?_⟩
  unfold main_logic
  rw [hnone]
  rfl

/-- C10 witness: two `--plant` values consisting only of whitespace are
coerced to no plant filter at all on the scenario input. -/
theorem blank_plant_values_ignored_witness :
    computePlantValues (some [str "  ", str ""]) false = none ∧
    main_logic ⟨some [str "SKU1"], none, str "article", str "article", str "plant",
        some [str "  ", str ""], str "*", false, false⟩ wHeader wRows =
      main_logic ⟨some [str "SKU1"], none, str "article", str "article", str "plant",
        none, str "*", false, false⟩ wHeader wRows :=
  blank_plant_values_ignored ⟨some [str "SKU1"], none, str "article", str "article",
      str "plant", some [str "  ", str ""], str "*", false, false⟩
    [str "  ", str ""] wHeader wRows rfl (by decide)

/-! ## Helper lemmas about the key-set builder -/

namespace FilterBySku

/-- Membership in a Python-set insertion. -/
theorem mem_sinsert (x y : Str) (s : List Str) : x ∈ sinsert y s ↔ x ∈ s ∨ x = y := by
  unfold sinsert
  by_cases h : y ∈ s
  · rw [if_pos h]
    constructor
    · exact Or.inl
    · rintro (hx | rfl)
      · exact hx
      · exact h
  · rw [if_neg h]
    simp [List.mem_append]

/-- Insertion into a duplicate-free set stays duplicate-free. -/
theorem nodup_sinsert (y : Str) (s : List Str) (h : s.Nodup) : (sinsert y s).Nodup := by
  unfold sinsert
  by_cases hm : y ∈ s
  · rwa [if_pos hm]
  · rw [if_neg hm]
    exact List.Nodup.append h (List.nodup_singleton y) (by simpa using hm)

/-- A fold of accumulator-monotone insertion steps decomposes memberships into
the start set and the fold from the empty set. -/
theorem mem_foldl_step {α : Type} (g : List Str → α → List Str)
    (hg : ∀ acc v x, x ∈ g acc v ↔ x ∈ acc ∨ x ∈ g [] v) :
    ∀ (l : List α) (acc : List Str) (x : Str),
      x ∈ l.foldl g acc ↔ x ∈ acc ∨ x ∈ l.foldl g [] := by
  intro l
  induction l with
  | nil => intro acc x; simp
  | cons v l ih =>
    intro acc x
    simp only [List.foldl_cons]
    rw [ih (g acc v) x, hg acc v x, ih (g [] v) x]
    tauto

/-- Membership in a fold from the empty set comes from some list element. -/
theorem mem_foldl_nil {α : Type} (g : List Str → α → List Str)
    (hg : ∀ acc v x, x ∈ g acc v ↔ x ∈ acc ∨ x ∈ g [] v) :
    ∀ (l : List α) (x : Str), x ∈ l.foldl g [] ↔ ∃ v ∈ l, x ∈ g [] v := by
  intro l
  induction l with
  | nil => intro x; simp
  | cons v l ih =>
    intro x
    simp only [List.foldl_cons]
    rw [mem_foldl_step g hg l (g [] v) x, ih x]
    simp only [List.mem_cons]
    constructor
    · rintro (hv | ⟨w, hw, hx⟩)
      · exact ⟨v, Or.inl rfl, hv⟩
      · exact ⟨w, Or.inr hw, hx⟩
    · rintro ⟨w, (rfl | hw), hx⟩
      · exact Or.inl hx
      · exact Or.inr ⟨w, hw, hx⟩

/-- Folding insertion steps preserves freedom from duplicates. -/
theorem nodup_foldl {α : Type} (g : List Str → α → List Str)
    (hg : ∀ acc v, acc.Nodup → (g acc v).Nodup) :
    ∀ (l : List α) (acc : List Str), acc.Nodup → (l.foldl g acc).Nodup := by
  intro l
  induction l with
  | nil => intro acc h; exact h
  | cons v l ih => intro acc h; exact ih (g acc v) (hg acc v h)

/-- Folding insertion steps preserves absence of a given element. -/
theorem not_mem_foldl {α : Type} (g : List Str → α → List Str) (x : Str)
    (hg : ∀ acc v, x ∉ acc → x ∉ g acc v) :
    ∀ (l : List α) (acc : List Str), x ∉ acc → x ∉ l.foldl g acc := by
  intro l
  induction l with
  | nil => intro acc h; exact h
  | cons v l ih => intro acc h; exact ih (g acc v) (hg acc v h)

/-- Normalization never turns a non-empty stripped value into the empty one. -/
theorem normCase_ne_nil (ci : Bool) (s : Str) (h : s ≠ []) : normCase ci s ≠ [] := by
  unfold normCase lowerStr
  cases ci <;> simp [h]

/-- Decomposition property of the literal-value step. -/
theorem litStep_mem (ci : Bool) (acc : List Str) (v : Str) (x : Str) :
    x ∈ litStep ci acc v ↔ x ∈ acc ∨ x ∈ litStep ci [] v := by
  unfold litStep
  by_cases h : trim v = []
  · simp [h]
  · rw [if_pos h, if_pos h]
    rw [mem_sinsert, mem_sinsert]
    simp

/-- Decomposition property of the structured-row step. -/
theorem rowStep_mem (ci : Bool) (col : Str) (acc : List Str) (r : Row) (x : Str) :
    x ∈ rowStep ci col acc r ↔ x ∈ acc ∨ x ∈ rowStep ci col [] r := by
  unfold rowStep
  by_cases h : trim (getv r col) = []
  · simp [h]
  · rw [if_pos h, if_pos h]
    rw [mem_sinsert, mem_sinsert]
    simp

/-- Decomposition property of the line-mode step. -/
theorem lineStep_mem (ci : Bool) (acc : List Str) (line : Str) (x : Str) :
    x ∈ lineStep ci acc line ↔ x ∈ acc ∨ x ∈ lineStep ci [] line := by
  unfold lineStep
  by_cases h : trim line ≠ [] ∧ (trim line).head? ≠ some '#'
  · rw [if_pos h, if_pos h]
    rw [mem_sinsert, mem_sinsert]
    simp
  · simp [h]

end FilterBySku

namespace FilterBySku

/-- Base-case membership in the literal-value step. -/
theorem litStep_nil_mem (ci : Bool) (v : Str) (x : Str) :
    x ∈ litStep ci [] v ↔ trim v ≠ [] ∧ x = normCase ci (trim v) := by
  unfold litStep
  by_cases h : trim v = []
  · simp [h]
  · rw [if_pos h]
    simp [sinsert, h]

/-- Base-case membership in the structured-row step. -/
theorem rowStep_nil_mem (ci : Bool) (col : Str) (r : Row) (x : Str) :
    x ∈ rowStep ci col [] r ↔
      trim (getv r col) ≠ [] ∧ x = normCase ci (trim (getv r col)) := by
  unfold rowStep
  by_cases h : trim (getv r col) = []
  · simp [h]
  · rw [if_pos h]
    simp [sinsert, h]

/-- Base-case membership in the line-mode step. -/
theorem lineStep_nil_mem (ci : Bool) (line : Str) (x : Str) :
    x ∈ lineStep ci [] line ↔
      trim line ≠ [] ∧ (trim line).head? ≠ some '#' ∧ x = normCase ci (trim line) := by
  unfold lineStep
  by_cases h : trim line ≠ [] ∧ (trim line).head? ≠ some '#'
  · rw [if_pos h]
    simp [sinsert, h.1, h.2]
  · rw [if_neg h]
    simp only [List.not_mem_nil, false_iff]
    intro hx
    exact h ⟨hx.1, hx.2.1⟩

/-- The literal-value step preserves freedom from duplicates. -/
theorem litStep_nodup (ci : Bool) (acc : List Str) (v : Str) (h : acc.Nodup) :
    (litStep ci acc v).Nodup := by
  unfold litStep
  by_cases hc : trim v ≠ []
  · rw [if_pos hc]
    exact nodup_sinsert _ _ h
  · rwa [if_neg hc]

/-- The structured-row step preserves freedom from duplicates. -/
theorem rowStep_nodup (ci : Bool) (col : Str) (acc : List Str) (r : Row) (h : acc.Nodup) :
    (rowStep ci col acc r).Nodup := by
  unfold rowStep
  by_cases hc : trim (getv r col) ≠ []
  · rw [if_pos hc]
    exact nodup_sinsert _ _ h
  · rwa [if_neg hc]

/-- The line-mode step preserves freedom from duplicates. -/
theorem lineStep_nodup (ci : Bool) (acc : List Str) (line : Str) (h : acc.Nodup) :
    (lineStep ci acc line).Nodup := by
  unfold lineStep
  by_cases hc : trim line ≠ [] ∧ (trim line).head? ≠ some '#'
  · rw [if_pos hc]
    exact nodup_sinsert _ _ h
  · rwa [if_neg hc]

/-- The literal-value step never inserts the empty key. -/
theorem litStep_ne_nil (ci : Bool) (acc : List Str) (v : Str) (h : [] ∉ acc) :
    [] ∉ litStep ci acc v := by
  unfold litStep
  by_cases hc : trim v ≠ []
  · rw [if_pos hc, mem_sinsert]
    rintro (h1 | h1)
    · exact h h1
    · exact normCase_ne_nil ci _ hc h1.symm
  · rwa [if_neg hc]

/-- The structured-row step never inserts the empty key. -/
theorem rowStep_ne_nil (ci : Bool) (col : Str) (acc : List Str) (r : Row) (h : [] ∉ acc) :
    [] ∉ rowStep ci col acc r := by
  unfold rowStep
  by_cases hc : trim (getv r col) ≠ []
  · rw [if_pos hc, mem_sinsert]
    rintro (h1 | h1)
    · exact h h1
    · exact normCase_ne_nil ci _ hc h1.symm
  · rwa [if_neg hc]

/-- The line-mode step never inserts the empty key. -/
theorem lineStep_ne_nil (ci : Bool) (acc : List Str) (line : Str) (h : [] ∉ acc) :
    [] ∉ lineStep ci acc line := by
  unfold lineStep
  by_cases hc : trim line ≠ [] ∧ (trim line).head? ≠ some '#'
  · rw [if_pos hc, mem_sinsert]
    rintro (h1 | h1)
    · exact h h1
    · exact normCase_ne_nil ci _ hc.1 h1.symm
  · rwa [if_neg hc]

/-- The literal set is duplicate-free. -/
theorem literalSet_nodup (vals : Option (List Str)) (ci : Bool) :
    (literalSet vals ci).Nodup := by
  unfold literalSet
  cases vals with
  | none => exact List.nodup_nil
  | some vs => exact nodup_foldl _ (litStep_nodup ci) vs [] List.nodup_nil

/-- The literal set never contains the empty key. -/
theorem literalSet_ne_nil (vals : Option (List Str)) (ci : Bool) :
    [] ∉ literalSet vals ci := by
  unfold literalSet
  cases vals with
  | none => exact List.not_mem_nil []
  | some vs => exact not_mem_foldl _ [] (litStep_ne_nil ci) vs [] (List.not_mem_nil [])

/-- Case analysis of `read_sku_list` on a present file: either some
line-oriented fallback applies to both the full build and the file set, or
structured mode applies to both. -/
theorem read_sku_list_cases (vals : Option (List Str)) (f : SkuFile) (col : Str) (ci : Bool) :
    (read_sku_list vals (some f) col ci =
        f.lines.foldl (lineStep ci) (literalSet vals ci) ∧
      fileSet f col ci = lineSet f ci) ∨
    (∃ fns, f.fieldnames = some fns ∧ f.csvError = false ∧ fns ≠ [] ∧ col ∈ fns ∧
      read_sku_list vals (some f) col ci =
        f.rows.foldl (rowStep ci col) (literalSet vals ci) ∧
      fileSet f col ci = f.rows.foldl (rowStep ci col) []) := by
  obtain ⟨ofns, frows, flines, ferr⟩ := f
  cases ferr with
  | true => exact Or.inl ⟨rfl, rfl⟩
  | false =>
    cases ofns with
    | none => exact Or.inl ⟨rfl, rfl⟩
    | some fns =>
      by_cases hcond : fns ≠ [] ∧ col ∈ fns
      · refine Or.inr ⟨fns, rfl, rfl, hcond.1, hcond.2, ?_, ?_⟩
        · show (if fns ≠ [] ∧ col ∈ fns then _ else _) = _
          rw [if_pos hcond]
        · show (if fns ≠ [] ∧ col ∈ fns then _ else _) = _
          rw [if_pos hcond]
      · refine Or.inl ⟨?_, ?_⟩
        · show (if fns ≠ [] ∧ col ∈ fns then _ else _) = _
          rw [if_neg hcond]
        · show (if fns ≠ [] ∧ col ∈ fns then _ else _) = _
          rw [if_neg hcond]
          rfl

end FilterBySku

/-- C6: the key-set builder returns the set union of the normalized surviving
literals and the normalized surviving file values; when the detected header
lacks the hint column or structured parsing fails, the file contributes its
line-oriented set, in which lines are trimmed and blank or `#`-prefixed lines
are dropped; in structured mode the hint column's trimmed non-empty values
are added; the result is duplicate-free and never contains the empty string. -/
theorem read_sku_list_set_union (vals : Option (List Str)) (f : SkuFile)
    (col : Str) (ci : Bool) :
    (∀ x, x ∈ read_sku_list vals (some f) col ci ↔
      x ∈ literalSet vals ci ∨ x ∈ fileSet f col ci) ∧
    ((f.csvError = true ∨ ∀ fns, f.fieldnames = some fns → col ∉ fns) →
      fileSet f col ci = lineSet f ci) ∧
    (∀ x, x ∈ lineSet f ci ↔
      ∃ line ∈ f.lines, trim line ≠ [] ∧ (trim line).head? ≠ some '#' ∧
        x = normCase ci (trim line)) ∧
    (f.csvError = false → ∀ fns, f.fieldnames = some fns → fns ≠ [] → col ∈ fns →
      ∀ x, x ∈ fileSet f col ci ↔
        ∃ r ∈ f.rows, trim (getv r col) ≠ [] ∧ x = normCase ci (trim (getv r col))) ∧
    (read_sku_list vals (some f) col ci).Nodup ∧
    [] ∉ read_sku_list vals (some f) col ci := by
  have hunion : ∀ x, x ∈ read_sku_list vals (some f) col ci ↔
      x ∈ literalSet vals ci ∨ x ∈ fileSet f col ci := by
    intro x
    rcases read_sku_list_cases vals f col ci with ⟨h1, h2⟩ | ⟨fns, hf, hcsv, hne, hcol, h1, h2⟩
    · rw [h1, h2]
      exact mem_foldl_step _ (lineStep_mem ci) f.lines _ x
    · rw [h1, h2]
      exact mem_foldl_step _ (rowStep_mem ci col) f.rows _ x
  have hfb : (f.csvError = true ∨ ∀ fns, f.fieldnames = some fns → col ∉ fns) →
      fileSet f col ci = lineSet f ci := by
    intro h
    rcases read_sku_list_cases vals f col ci with ⟨h1, h2⟩ | ⟨fns, hf, hcsv, hne, hcol, h1, h2⟩
    · exact h2
    · rcases h with h | h
      · rw [hcsv] at h
        exact absurd h (by simp)
      · exact absurd hcol (h fns hf)
  have hline : ∀ x, x ∈ lineSet f ci ↔
      ∃ line ∈ f.lines, trim line ≠ [] ∧ (trim line).head? ≠ some '#' ∧
        x = normCase ci (trim line) := by
    intro x
    unfold lineSet
    rw [mem_foldl_nil _ (lineStep_mem ci) f.lines x]
    constructor
    · rintro ⟨line, hl, hx⟩
      exact ⟨line, hl, (lineStep_nil_mem ci line x).mp hx⟩
    · rintro ⟨line, hl, hx⟩
      exact ⟨line, hl, (lineStep_nil_mem ci line x).mpr hx⟩
  have hstruct : f.csvError = false → ∀ fns, f.fieldnames = some fns → fns ≠ [] →
      col ∈ fns → ∀ x, x ∈ fileSet f col ci ↔
        ∃ r ∈ f.rows, trim (getv r col) ≠ [] ∧ x = normCase ci (trim (getv r col)) := by
    intro hcsv fns hf hne hcol x
    have hfs : fileSet f col ci = f.rows.foldl (rowStep ci col) [] := by
      obtain ⟨ofns, frows, flines, ferr⟩ := f
      cases hf
      cases hcsv
      show (if fns ≠ [] ∧ col ∈ fns then _ else _) = _
      rw [if_pos ⟨hne, hcol⟩]
    rw [hfs, mem_foldl_nil _ (rowStep_mem ci col) f.rows x]
    constructor
    · rintro ⟨r, hr, hx⟩
      exact ⟨r, hr, (rowStep_nil_mem ci col r x).mp hx⟩
    · rintro ⟨r, hr, hx⟩
      exact ⟨r, hr, (rowStep_nil_mem ci col r x).mpr hx⟩
  have hnodup : (read_sku_list vals (some f) col ci).Nodup := by
    rcases read_sku_list_cases vals f col ci with ⟨h1, _⟩ | ⟨_, _, _, _, _, h1, _⟩
    · rw [h1]
      exact nodup_foldl _ (lineStep_nodup ci) f.lines _ (literalSet_nodup vals ci)
    · rw [h1]
      exact nodup_foldl _ (rowStep_nodup ci col) f.rows _ (literalSet_nodup vals ci)
  have hnil : [] ∉ read_sku_list vals (some f) col ci := by
    rcases read_sku_list_cases vals f col ci with ⟨h1, _⟩ | ⟨_, _, _, _, _, h1, _⟩
    · rw [h1]
      exact not_mem_foldl _ [] (lineStep_ne_nil ci) f.lines _ (literalSet_ne_nil vals ci)
    · rw [h1]
      exact not_mem_foldl _ [] (rowStep_ne_nil ci col) f.rows _ (literalSet_ne_nil vals ci)
  exact ⟨hunion, hfb, hline, hstruct, hnodup, hnil⟩

/-- C6 witness: the decomposition instantiated on a literal value plus a
line-oriented key file (header lacking the hint column), and the structured
characterization instantiated on a headered key file containing the hint
column. -/
theorem read_sku_list_set_union_witness :
    (∀ x, x ∈ read_sku_list (some [str "LIT"]) (some kFileLine) (str "article") false ↔
      x ∈ literalSet (some [str "LIT"]) false ∨
        x ∈ fileSet kFileLine (str "article") false) ∧
    fileSet kFileLine (str "article") false = lineSet kFileLine false ∧
    (∀ x, x ∈ fileSet kFileCsv (str "article") false ↔
      ∃ r ∈ kFileCsv.rows, trim (getv r (str "article")) ≠ [] ∧
        x = normCase false (trim (getv r (str "article")))) ∧
    (read_sku_list (some [str "LIT"]) (some kFileLine) (str "article") false).Nodup ∧
    [] ∉ read_sku_list (some [str "LIT"]) (some kFileLine) (str "article") false := by
  refine ⟨(read_sku_list_set_union (some [str "LIT"]) kFileLine (str "article") false).1,
    (read_sku_list_set_union (some [str "LIT"]) kFileLine (str "article") false).2.1
      (Or.inr ?_),
    (read_sku_list_set_union (some [str "LIT"]) kFileCsv (str "article") false).2.2.2.1
      rfl [str "article", str "x"] rfl (by decide) (by decide),
    (read_sku_list_set_union (some [str "LIT"]) kFileLine (str "article") false).2.2.2.2.1,
    (read_sku_list_set_union (some [str "LIT"]) kFileLine (str "article") false).2.2.2.2.2⟩
  intro fns h
  cases Option.some.inj h
  decide

/-! ## Helper lemmas about the uniqueness extractor -/

namespace UniqueValues

/-- A counts lookup misses exactly the keys outside the table. -/
theorem clookup_eq_none (cs : List (Str × Nat)) (k : Str) :
    clookup cs k = none ↔ k ∉ keysOf cs := by
  induction cs with
  | nil => simp [clookup, keysOf]
  | cons p rest ih =>
    obtain ⟨a, n⟩ := p
    simp only [clookup, keysOf, List.map_cons, List.mem_cons]
    by_cases h : a = k
    · simp [h]
    · rw [if_neg h, ih]
      unfold keysOf
      constructor
      · rintro hnot (he | hm)
        · exact h he.symm
        · exact hnot hm
      · intro hnot hm
        exact hnot (Or.inr hm)

/-- A display lookup misses exactly the keys outside the table. -/
theorem alookup_eq_none (ds : List (Str × Str)) (k : Str) :
    FilterBySku.alookup ds k = none ↔ k ∉ keysOf ds := by
  induction ds with
  | nil => simp [FilterBySku.alookup, keysOf]
  | cons p rest ih =>
    obtain ⟨a, d⟩ := p
    simp only [FilterBySku.alookup, keysOf, List.map_cons, List.mem_cons]
    by_cases h : a = k
    · simp [h]
    · rw [if_neg h, ih]
      unfold keysOf
      constructor
      · rintro hnot (he | hm)
        · exact h he.symm
        · exact hnot hm
      · intro hnot hm
        exact hnot (Or.inr hm)

/-- A successful counts lookup exhibits a table entry. -/
theorem clookup_mem {cs : List (Str × Nat)} {k : Str} {n : Nat}
    (h : clookup cs k = some n) : (k, n) ∈ cs := by
  induction cs with
  | nil => exact absurd h (by simp [clookup])
  | cons p rest ih =>
    obtain ⟨a, m⟩ := p
    unfold clookup at h
    by_cases he : a = k
    · rw [if_pos he] at h
      injection h with h
      subst he
      subst h
      exact List.mem_cons_self _ _
    · rw [if_neg he] at h
      exact List.mem_cons_of_mem _ (ih h)

/-- A successful display lookup exhibits a table entry. -/
theorem alookup_mem {ds : List (Str × Str)} {k : Str} {d : Str}
    (h : FilterBySku.alookup ds k = some d) : (k, d) ∈ ds := by
  induction ds with
  | nil => exact absurd h (by simp [FilterBySku.alookup])
  | cons p rest ih =>
    obtain ⟨a, e⟩ := p
    unfold FilterBySku.alookup at h
    by_cases he : a = k
    · rw [if_pos he] at h
      injection h with h
      subst he
      subst h
      exact List.mem_cons_self _ _
    · rw [if_neg he] at h
      exact List.mem_cons_of_mem _ (ih h)

/-- Counting a key after a Python `counts[key] += 1` update. -/
theorem clookup_bump (cs : List (Str × Nat)) (key k : Str) :
    clookup (bump cs key) k =
      (clookup cs k).map (fun n => if k = key then n + 1 else n) := by
  induction cs with
  | nil => simp [clookup, bump]
  | cons p rest ih =>
    obtain ⟨a, m⟩ := p
    by_cases hkey : a = key
    · show clookup ((if a = key then (a, m + 1) else (a, m)) :: bump rest key) k = _
      rw [if_pos hkey]
      show (if a = k then some (m + 1) else clookup (bump rest key) k) =
        (if a = k then some m else clookup rest k).map (fun n => if k = key then n + 1 else n)
      by_cases hak : a = k
      · rw [if_pos hak, if_pos hak]
        have hkk : k = key := by rw [← hak, hkey]
        simp [hkk]
      · rw [if_neg hak, if_neg hak]
        exact ih
    · show clookup ((if a = key then (a, m + 1) else (a, m)) :: bump rest key) k = _
      rw [if_neg hkey]
      show (if a = k then some m else clookup (bump rest key) k) =
        (if a = k then some m else clookup rest k).map (fun n => if k = key then n + 1 else n)
      by_cases hak : a = k
      · rw [if_pos hak, if_pos hak]
        have hkk : ¬k = key := by rw [← hak]; exact hkey
        simp [hkk]
      · rw [if_neg hak, if_neg hak]
        exact ih

/-- The update of one count leaves the key column unchanged. -/
theorem keysOf_bump (cs : List (Str × Nat)) (key : Str) :
    keysOf (bump cs key) = keysOf cs := by
  induction cs with
  | nil => rfl
  | cons p rest ih =>
    obtain ⟨a, m⟩ := p
    by_cases hkey : a = key
    · simp only [bump, keysOf, List.map_cons] at *
      rw [if_pos hkey]
      simpa using ih
    · simp only [bump, keysOf, List.map_cons] at *
      rw [if_neg hkey]
      simpa using ih

/-- Key columns distribute over table concatenation. -/
theorem keysOf_append {α : Type} (l m : List (Str × α)) :
    keysOf (l ++ m) = keysOf l ++ keysOf m := List.map_append _ l m

/-- A hit in the front table survives concatenation. -/
theorem clookup_append_left {cs : List (Str × Nat)} (ds : List (Str × Nat)) {k : Str}
    {n : Nat} (h : clookup cs k = some n) : clookup (cs ++ ds) k = some n := by
  induction cs with
  | nil => exact absurd h (by simp [clookup])
  | cons p rest ih =>
    obtain ⟨a, m⟩ := p
    simp only [clookup] at h
    show (if a = k then some m else clookup (rest ++ ds) k) = some n
    by_cases he : a = k
    · rwa [if_pos he] at h ⊢
    · rw [if_neg he] at h ⊢
      exact ih h

/-- A miss in the front table defers to the back table. -/
theorem clookup_append_right {cs : List (Str × Nat)} (ds : List (Str × Nat)) {k : Str}
    (h : clookup cs k = none) : clookup (cs ++ ds) k = clookup ds k := by
  induction cs with
  | nil => rfl
  | cons p rest ih =>
    obtain ⟨a, m⟩ := p
    simp only [clookup] at h
    show (if a = k then some m else clookup (rest ++ ds) k) = clookup ds k
    by_cases he : a = k
    · rw [if_pos he] at h
      exact absurd h (by simp)
    · rw [if_neg he] at h
      rw [if_neg he]
      exact ih h

/-- A hit in the front display table survives concatenation. -/
theorem alookup_append_left {ds : List (Str × Str)} (es : List (Str × Str)) {k : Str}
    {d : Str} (h : FilterBySku.alookup ds k = some d) :
    FilterBySku.alookup (ds ++ es) k = some d := by
  induction ds with
  | nil => exact absurd h (by simp [FilterBySku.alookup])
  | cons p rest ih =>
    obtain ⟨a, e⟩ := p
    simp only [FilterBySku.alookup] at h
    show (if a = k then some e else FilterBySku.alookup (rest ++ es) k) = some d
    by_cases he : a = k
    · rwa [if_pos he] at h ⊢
    · rw [if_neg he] at h ⊢
      exact ih h

/-- A miss in the front display table defers to the back table. -/
theorem alookup_append_right {ds : List (Str × Str)} (es : List (Str × Str)) {k : Str}
    (h : FilterBySku.alookup ds k = none) :
    FilterBySku.alookup (ds ++ es) k = FilterBySku.alookup es k := by
  induction ds with
  | nil => rfl
  | cons p rest ih =>
    obtain ⟨a, e⟩ := p
    simp only [FilterBySku.alookup] at h
    show (if a = k then some e else FilterBySku.alookup (rest ++ es) k) =
      FilterBySku.alookup es k
    by_cases he : a = k
    · rw [if_pos he] at h
      exact absurd h (by simp)
    · rw [if_neg he] at h
      rw [if_neg he]
      exact ih h

/-- A blank value leaves the accumulator untouched (the `continue` branch). -/
theorem ustep_of_blank (ci : Bool) (st : UState) (raw : Str) (h : trim raw = []) :
    ustep ci st raw = st := by
  unfold ustep
  rw [if_pos h]

/-- A repeated key only bumps its count. -/
theorem ustep_seen (ci : Bool) (st : UState) (raw : Str) (h : trim raw ≠ [])
    (h2 : clookup st.counts (normKey ci raw) ≠ none) :
    ustep ci st raw = ⟨bump st.counts (normKey ci raw), st.order, st.display⟩ := by
  unfold ustep
  rw [if_neg h]
  have hh : (clookup st.counts (normCase ci (trim raw))).isNone = false := by
    show (clookup st.counts (normKey ci raw)).isNone = false
    cases hc : clookup st.counts (normKey ci raw)
    · exact absurd hc h2
    · rfl
  rw [if_neg (by rw [hh]; exact Bool.false_ne_true)]
  rfl

/-- A first-seen key is appended to all three tables, then counted once. -/
theorem ustep_new (ci : Bool) (st : UState) (raw : Str) (h : trim raw ≠ [])
    (h2 : clookup st.counts (normKey ci raw) = none) :
    ustep ci st raw = ⟨bump (st.counts ++ [(normKey ci raw, 0)]) (normKey ci raw),
      st.order ++ [normKey ci raw], st.display ++ [(normKey ci raw, trim raw)]⟩ := by
  unfold ustep
  rw [if_neg h]
  have hh : (clookup st.counts (normCase ci (trim raw))).isNone = true := by
    show (clookup st.counts (normKey ci raw)).isNone = true
    rw [h2]
    rfl
  rw [if_pos hh]
  rfl

/-- After a bump, every entry whose old guarantee covered the non-bumped keys
has a count of at least 1. -/
theorem bump_ge_one {cs : List (Str × Nat)} {key : Str}
    (h : ∀ p ∈ cs, p.1 ≠ key → 1 ≤ p.2) : ∀ p ∈ bump cs key, 1 ≤ p.2 := by
  intro p hp
  obtain ⟨q, hq, rfl⟩ := List.mem_map.mp hp
  by_cases hqk : q.1 = key
  · rw [if_pos hqk]
    exact Nat.succ_le_succ (Nat.zero_le _)
  · rw [if_neg hqk]
    exact h q hq hqk

end UniqueValues

/-- The empty accumulator satisfies the strengthened invariant. -/
theorem strongInv_nil (ci : Bool) : StrongInv ci ⟨[], [], []⟩ :=
  ⟨rfl, rfl, List.nodup_nil,
    fun p hp => absurd hp (List.not_mem_nil p),
    fun p hp => absurd hp (List.not_mem_nil p)⟩

/-- One accumulation step preserves the strengthened invariant. -/
theorem strongInv_ustep (ci : Bool) (st : UState) (raw : Str) (h : StrongInv ci st) :
    StrongInv ci (ustep ci st raw) := by
  obtain ⟨h1, h2, h3, h4, h5⟩ := h
  by_cases hb : trim raw = []
  · rw [ustep_of_blank ci st raw hb]
    exact ⟨h1, h2, h3, h4, h5⟩
  · cases hck : clookup st.counts (normKey ci raw) with
    | some n =>
      rw [ustep_seen ci st raw hb (by rw [hck]; exact fun hx => Option.noConfusion hx)]
      refine ⟨?_, h2, h3, bump_ge_one (fun p hp _ => h4 p hp), h5⟩
      show st.order = keysOf (bump st.counts (normKey ci raw))
      rw [keysOf_bump]
      exact h1
    | none =>
      rw [ustep_new ci st raw hb hck]
      have hknotc : normKey ci raw ∉ keysOf st.counts := (clookup_eq_none _ _).mp hck
      refine ⟨?_, ?_, ?_, ?_, ?_⟩
      · show st.order ++ [normKey ci raw] =
          keysOf (bump (st.counts ++ [(normKey ci raw, 0)]) (normKey ci raw))
        rw [keysOf_bump, keysOf_append, h1]
        rfl
      · show st.order ++ [normKey ci raw] =
          keysOf (st.display ++ [(normKey ci raw, trim raw)])
        rw [keysOf_append, h2]
        rfl
      · show (st.order ++ [normKey ci raw]).Nodup
        refine List.Nodup.append h3 (List.nodup_singleton _) ?_
        intro a ha hb2
        rw [List.mem_singleton] at hb2
        subst hb2
        exact hknotc (h1 ▸ ha)
      · show ∀ p ∈ bump (st.counts ++ [(normKey ci raw, 0)]) (normKey ci raw), 1 ≤ p.2
        refine bump_ge_one ?_
        intro p hp hpk
        rcases List.mem_append.mp hp with hp1 | hp1
        · exact h4 p hp1
        · rw [List.mem_singleton] at hp1
          subst hp1
          exact absurd rfl hpk
      · show ∀ p ∈ st.display ++ [(normKey ci raw, trim raw)],
          normCase ci p.2 = p.1 ∧ p.2 ≠ []
        intro p hp
        rcases List.mem_append.mp hp with hp1 | hp1
        · exact h5 p hp1
        · rw [List.mem_singleton] at hp1
          subst hp1
          exact ⟨rfl, hb⟩

/-- The whole accumulation pass preserves the strengthened invariant. -/
theorem strongInv_foldl (ci : Bool) (vals : List Str) (st : UState)
    (h : StrongInv ci st) : StrongInv ci (vals.foldl (ustep ci) st) := by
  induction vals generalizing st with
  | nil => exact h
  | cons v vs ih => exact ih (ustep ci st v) (strongInv_ustep ci st v h)

/-- The accumulator built from any value list satisfies the strengthened
invariant. -/
theorem strongInv_processVals (ci : Bool) (vals : List Str) :
    StrongInv ci (processVals ci vals) :=
  strongInv_foldl ci vals _ (strongInv_nil ci)

/-- C9: the accumulation invariant of the uniqueness extractor — the
first-seen order list holds each normalized key at most once, the key set of
the order list coincides with the key sets of the counts and display tables,
and every recorded count is at least 1 — is preserved by every per-row step
and holds of the state after the whole accumulation pass. -/
theorem ustate_invariant :
    (∀ (ci : Bool) (st : UState) (raw : Str), UInv st → UInv (ustep ci st raw)) ∧
    (∀ (ci : Bool) (vals : List Str), UInv (processVals ci vals)) := by
  have hstep : ∀ (ci : Bool) (st : UState) (raw : Str), UInv st → UInv (ustep ci st raw) := by
    intro ci st raw h
    obtain ⟨h1, h2, h3, h4⟩ := h
    by_cases hb : trim raw = []
    · rw [ustep_of_blank ci st raw hb]
      exact ⟨h1, h2, h3, h4⟩
    · cases hck : clookup st.counts (normKey ci raw) with
      | some n =>
        rw [ustep_seen ci st raw hb (by rw [hck]; exact fun hx => Option.noConfusion hx)]
        refine ⟨h1, ?_, ?_, bump_ge_one (fun p hp _ => h4 p hp)⟩
        · intro k
          show k ∈ st.order ↔ k ∈ keysOf (bump st.counts (normKey ci raw))
          rw [keysOf_bump]
          exact h2 k
        · intro k
          show k ∈ keysOf (bump st.counts (normKey ci raw)) ↔ k ∈ keysOf st.display
          rw [keysOf_bump]
          exact h3 k
      | none =>
        rw [ustep_new ci st raw hb hck]
        have hknotc : normKey ci raw ∉ keysOf st.counts := (clookup_eq_none _ _).mp hck
        refine ⟨?_, ?_, ?_, ?_⟩
        · show (st.order ++ [normKey ci raw]).Nodup
          refine List.Nodup.append h1 (List.nodup_singleton _) ?_
          intro a ha hb2
          rw [List.mem_singleton] at hb2
          subst hb2
          exact hknotc ((h2 _).mp ha)
        · intro k
          show k ∈ st.order ++ [normKey ci raw] ↔
            k ∈ keysOf (bump (st.counts ++ [(normKey ci raw, 0)]) (normKey ci raw))
          rw [keysOf_bump, keysOf_append]
          simp only [List.mem_append]
          exact or_congr (h2 k) Iff.rfl
        · intro k
          show k ∈ keysOf (bump (st.counts ++ [(normKey ci raw, 0)]) (normKey ci raw)) ↔
            k ∈ keysOf (st.display ++ [(normKey ci raw, trim raw)])
          rw [keysOf_bump, keysOf_append, keysOf_append]
          simp only [List.mem_append]
          exact or_congr (h3 k) Iff.rfl
        · show ∀ p ∈ bump (st.counts ++ [(normKey ci raw, 0)]) (normKey ci raw), 1 ≤ p.2
          refine bump_ge_one ?_
          intro p hp hpk
          rcases List.mem_append.mp hp with hp1 | hp1
          · exact h4 p hp1
          · rw [List.mem_singleton] at hp1
            subst hp1
            exact absurd rfl hpk
  refine ⟨hstep, ?_⟩
  intro ci vals
  have hall : ∀ st, UInv st → UInv (vals.foldl (ustep ci) st) := by
    induction vals with
    | nil => exact fun st h => h
    | cons v vs ih => exact fun st h => ih (ustep ci st v) (hstep ci st v h)
  exact hall ⟨[], [], []⟩
    ⟨List.nodup_nil, by simp [keysOf], by simp [keysOf], by simp⟩

/-- C9 witness: the invariant instantiated on the accumulator of the values
a, b, with one further step on the value b, its invariant hypothesis supplied
by the whole-pass part of the theorem. -/
theorem ustate_invariant_witness :
    UInv (ustep false (processVals false [str "a"]) (str "b")) ∧
    UInv (processVals false [str "a", str "b"]) :=
  ⟨ustate_invariant.1 false (processVals false [str "a"]) (str "b")
      (ustate_invariant.2 false [str "a"]),
    ustate_invariant.2 false [str "a", str "b"]⟩

/-! ## Stable-sort lemmas -/

/-- A sequence split into a prefix satisfying a flag and a suffix refuting it
splits uniquely. -/
theorem append_eq_append_of_sep {α : Type} (p : α → Bool) :
    ∀ (l1 l2 m1 m2 : List α), l1 ++ l2 = m1 ++ m2 →
    (∀ b ∈ l1, p b = true) → (∀ b ∈ l2, p b = false) →
    (∀ b ∈ m1, p b = true) → (∀ b ∈ m2, p b = false) →
    l1 = m1 ∧ l2 = m2 := by
  intro l1
  induction l1 with
  | nil =>
    intro l2 m1 m2 heq h1 h2 h3 h4
    cases m1 with
    | nil => exact ⟨rfl, heq⟩
    | cons b m1 =>
      exfalso
      simp only [List.nil_append, List.cons_append] at heq
      have hb : b ∈ l2 := by
        rw [heq]
        exact List.mem_cons_self b _
      have e1 := h2 b hb
      have e2 := h3 b (List.mem_cons_self b m1)
      rw [e1] at e2
      exact Bool.noConfusion e2
  | cons a l1 ih =>
    intro l2 m1 m2 heq h1 h2 h3 h4
    cases m1 with
    | nil =>
      exfalso
      simp only [List.cons_append, List.nil_append] at heq
      have ha : a ∈ m2 := by
        rw [← heq]
        exact List.mem_cons_self a _
      have e1 := h4 a ha
      have e2 := h1 a (List.mem_cons_self a l1)
      rw [e1] at e2
      exact Bool.noConfusion e2
    | cons b m1 =>
      simp only [List.cons_append, List.cons.injEq] at heq
      obtain ⟨rfl, heq2⟩ := heq
      obtain ⟨he1, he2⟩ := ih l2 m1 m2 heq2
        (fun x hx => h1 x (List.mem_cons_of_mem _ hx)) h2
        (fun x hx => h3 x (List.mem_cons_of_mem _ hx)) h4
      exact ⟨by rw [he1], he2⟩

/-- A stable merge sort commutes with filtering: sorting a filtered list is
filtering the sorted list. -/
theorem mergeSort_filter {α : Type} {le : α → α → Bool}
    (htrans : ∀ (a b c : α), le a b = true → le b c = true → le a c = true)
    (htotal : ∀ (a b : α), (le a b || le b a) = true) (g : α → Bool) :
    ∀ l : List α, (l.filter g).mergeSort le = (l.mergeSort le).filter g := by
  intro l
  induction l with
  | nil => simp
  | cons a l ih =>
    obtain ⟨l1, l2, h1, h2, h3⟩ := List.mergeSort_cons htrans htotal a l
    have hs : List.Pairwise (fun x y => le x y = true) ((a :: l).mergeSort le) :=
      List.sorted_mergeSort htrans htotal (a :: l)
    rw [h1] at hs
    have hl2 : ∀ b ∈ l2, le a b = true := by
      have hp := (List.pairwise_append.mp hs).2.1
      exact fun b hb => List.rel_of_pairwise_cons hp hb
    have hl1 : ∀ b ∈ l1.filter g, (!le a b) = true :=
      fun b hb => h3 b (List.mem_of_mem_filter hb)
    by_cases hga : g a = true
    · rw [List.filter_cons_of_pos hga]
      obtain ⟨m1, m2, k1, k2, k3⟩ := List.mergeSort_cons htrans htotal a (l.filter g)
      have hsm : List.Pairwise (fun x y => le x y = true)
          ((a :: l.filter g).mergeSort le) :=
        List.sorted_mergeSort htrans htotal (a :: l.filter g)
      rw [k1] at hsm
      have hm2 : ∀ b ∈ m2, le a b = true := by
        have hp := (List.pairwise_append.mp hsm).2.1
        exact fun b hb => List.rel_of_pairwise_cons hp hb
      have hmm : m1 ++ m2 = (l1.filter g) ++ (l2.filter g) := by
        rw [← k2, ih, h2, List.filter_append]
      have hsplit := append_eq_append_of_sep (fun b => !le a b) m1 m2
        (l1.filter g) (l2.filter g) hmm k3
        (fun b hb => by
          show (!le a b) = false
          rw [hm2 b hb]
          rfl)
        hl1
        (fun b hb => by
          show (!le a b) = false
          rw [hl2 b (List.mem_of_mem_filter hb)]
          rfl)
      obtain ⟨e1, e2⟩ := hsplit
      rw [k1, h1, List.filter_append, List.filter_cons_of_pos hga, e1, e2]
    · have hga2 : g a = false := by
        cases hx : g a
        · rfl
        · exact absurd hx hga
      rw [List.filter_cons_of_neg (by rw [hga2]; exact Bool.false_ne_true)]
      rw [ih, h1, h2, List.filter_append, List.filter_append,
        List.filter_cons_of_neg (by rw [hga2]; exact Bool.false_ne_true)]

/-- The code-point comparison is transitive. -/
theorem strLe_trans : ∀ (a b c : Str), strLe a b = true → strLe b c = true →
    strLe a c = true := by
  intro a
  induction a with
  | nil => intro b c h1 h2; rfl
  | cons x s ih =>
    intro b c h1 h2
    cases b with
    | nil => simp [strLe] at h1
    | cons y t =>
      cases c with
      | nil => simp [strLe] at h2
      | cons z u =>
        simp only [strLe] at h1 h2 ⊢
        split_ifs at h1 h2 ⊢ <;>
          first
          | rfl
          | omega
          | (exact ih t u h1 h2)

/-- The code-point comparison is total. -/
theorem strLe_total : ∀ (a b : Str), (strLe a b || strLe b a) = true := by
  intro a
  induction a with
  | nil => intro b; rfl
  | cons x s ih =>
    intro b
    cases b with
    | nil => rfl
    | cons y t =>
      simp only [strLe]
      by_cases hxy : x.toNat < y.toNat
      · simp [hxy]
      · by_cases hyx : y.toNat < x.toNat
        · simp [hxy, hyx]
        · simp only [hxy, hyx, if_false]
          exact ih t

/-- The code-point comparison is reflexive. -/
theorem strLe_refl (s : Str) : strLe s s = true := by
  have h := strLe_total s s
  cases hx : strLe s s
  · rw [hx] at h
    exact absurd h (by simp)
  · rfl

/-! ## The count and display tables after the accumulation pass -/

namespace UniqueValues

/-- One step adds exactly the step value's contribution to each count. -/
theorem clookup_ustep (ci : Bool) (st : UState) (raw : Str) (k : Str) :
    (clookup (ustep ci st raw).counts k).getD 0 =
      (clookup st.counts k).getD 0 +
        (if trim raw ≠ [] ∧ normKey ci raw = k then 1 else 0) := by
  by_cases hb : trim raw = []
  · rw [ustep_of_blank ci st raw hb]
    rw [if_neg (by simp [hb])]
    omega
  · cases hck : clookup st.counts (normKey ci raw) with
    | some n =>
      rw [ustep_seen ci st raw hb (by rw [hck]; exact fun hx => Option.noConfusion hx)]
      show (clookup (bump st.counts (normKey ci raw)) k).getD 0 = _
      rw [clookup_bump]
      by_cases hk : k = normKey ci raw
      · subst hk
        rw [hck, if_pos ⟨hb, rfl⟩]
        simp
      · rw [if_neg (fun hc => hk hc.2.symm)]
        cases hck2 : clookup st.counts k
        · simp
        · simp [hk]
    | none =>
      rw [ustep_new ci st raw hb hck]
      show (clookup (bump (st.counts ++ [(normKey ci raw, 0)]) (normKey ci raw)) k).getD 0 = _
      rw [clookup_bump]
      by_cases hk : k = normKey ci raw
      · subst hk
        rw [clookup_append_right _ hck, hck, if_pos ⟨hb, rfl⟩]
        simp [clookup]
      · rw [if_neg (fun hc => hk hc.2.symm)]
        cases hck2 : clookup st.counts k with
        | some m =>
          rw [clookup_append_left _ hck2]
          simp [hk]
        | none =>
          rw [clookup_append_right _ hck2]
          have hnone : clookup [(normKey ci raw, 0)] k = none := by
            simp only [clookup]
            rw [if_neg (fun h => hk h.symm)]
          rw [hnone]
          simp

/-- After folding the whole value list, each count is the start count plus
the total number of occurrences. -/
theorem clookup_foldl (ci : Bool) (vals : List Str) (st : UState) (k : Str) :
    (clookup ((vals.foldl (ustep ci) st).counts) k).getD 0 =
      (clookup st.counts k).getD 0 + countOcc ci vals k := by
  induction vals generalizing st with
  | nil =>
    show (clookup st.counts k).getD 0 = (clookup st.counts k).getD 0 + countOcc ci [] k
    simp [countOcc]
  | cons v vs ih =>
    show (clookup ((vs.foldl (ustep ci) (ustep ci st v)).counts) k).getD 0 = _
    rw [ih (ustep ci st v), clookup_ustep]
    unfold countOcc
    rw [List.countP_cons]
    by_cases hc : trim v ≠ [] ∧ normKey ci v = k
    · rw [if_pos hc, if_pos (decide_eq_true hc)]
      omega
    · rw [if_neg hc, if_neg (fun h => hc (of_decide_eq_true h))]
      omega

/-- The final count of each key equals its number of occurrences. -/
theorem counts_processVals (ci : Bool) (vals : List Str) (k : Str) :
    (clookup (processVals ci vals).counts k).getD 0 = countOcc ci vals k := by
  show (clookup ((vals.foldl (ustep ci) ⟨[], [], []⟩).counts) k).getD 0 = countOcc ci vals k
  rw [clookup_foldl]
  exact Nat.zero_add _

/-- After folding the whole value list over a well-formed accumulator, a key
display is its old display, else the first occurrence among the values. -/
theorem alookup_foldl_display (ci : Bool) (vals : List Str) (st : UState) (k : Str)
    (h : StrongInv ci st) :
    FilterBySku.alookup ((vals.foldl (ustep ci) st).display) k =
      (FilterBySku.alookup st.display k).orElse (fun _ => firstDisplay ci vals k) := by
  induction vals generalizing st with
  | nil =>
    show FilterBySku.alookup st.display k = _
    cases FilterBySku.alookup st.display k <;> rfl
  | cons v vs ih =>
    show FilterBySku.alookup ((vs.foldl (ustep ci) (ustep ci st v)).display) k = _
    rw [ih (ustep ci st v) (strongInv_ustep ci st v h)]
    by_cases hb : trim v = []
    · rw [ustep_of_blank ci st v hb]
      have hfd : firstDisplay ci (v :: vs) k = firstDisplay ci vs k := by
        show (if trim v ≠ [] ∧ normKey ci v = k then some (trim v)
          else firstDisplay ci vs k) = firstDisplay ci vs k
        rw [if_neg (by simp [hb])]
      rw [hfd]
    · cases hck : clookup st.counts (normKey ci v) with
      | some n =>
        rw [ustep_seen ci st v hb (by rw [hck]; exact fun hx => Option.noConfusion hx)]
        show (FilterBySku.alookup st.display k).orElse (fun _ => firstDisplay ci vs k) = _
        by_cases hkk : normKey ci v = k
        · obtain ⟨h1, h2, h3, h4, h5⟩ := h
          have hmemc : k ∈ keysOf st.counts := by
            rw [← hkk]
            by_contra hno
            rw [← clookup_eq_none st.counts (normKey ci v)] at hno
            rw [hck] at hno
            exact Option.noConfusion hno
          have hmemd : k ∈ keysOf st.display := by
            rw [← h2, h1]
            exact hmemc
          cases hd : FilterBySku.alookup st.display k with
          | none => exact absurd ((alookup_eq_none _ _).mp hd) (fun hx => hx hmemd)
          | some d => rfl
        · have hfd : firstDisplay ci (v :: vs) k = firstDisplay ci vs k := by
            show (if trim v ≠ [] ∧ normKey ci v = k then some (trim v)
              else firstDisplay ci vs k) = firstDisplay ci vs k
            rw [if_neg (fun hc => hkk hc.2)]
          rw [hfd]
      | none =>
        rw [ustep_new ci st v hb hck]
        show (FilterBySku.alookup (st.display ++ [(normKey ci v, trim v)]) k).orElse
          (fun _ => firstDisplay ci vs k) = _
        by_cases hkk : normKey ci v = k
        · obtain ⟨h1, h2, h3, h4, h5⟩ := h
          have hdn : FilterBySku.alookup st.display k = none := by
            rw [alookup_eq_none, ← hkk]
            intro hmem
            have hmo : normKey ci v ∈ st.order := by rw [h2]; exact hmem
            have hmc : normKey ci v ∈ keysOf st.counts := by rw [← h1]; exact hmo
            exact ((clookup_eq_none _ _).mp hck) hmc
          rw [alookup_append_right _ hdn, hdn]
          have hsd : FilterBySku.alookup [(normKey ci v, trim v)] k = some (trim v) := by
            simp only [FilterBySku.alookup]
            rw [if_pos hkk]
          rw [hsd]
          have hfd : firstDisplay ci (v :: vs) k = some (trim v) := by
            show (if trim v ≠ [] ∧ normKey ci v = k then some (trim v)
              else firstDisplay ci vs k) = some (trim v)
            rw [if_pos ⟨hb, hkk⟩]
          rw [hfd]
          rfl
        · have hnone1 : FilterBySku.alookup [(normKey ci v, trim v)] k = none := by
            simp only [FilterBySku.alookup]
            rw [if_neg hkk]
          have hfd : firstDisplay ci (v :: vs) k = firstDisplay ci vs k := by
            show (if trim v ≠ [] ∧ normKey ci v = k then some (trim v)
              else firstDisplay ci vs k) = firstDisplay ci vs k
            rw [if_neg (fun hc => hkk hc.2)]
          rw [hfd]
          cases hd : FilterBySku.alookup st.display k with
          | some d => rw [alookup_append_left _ hd]
          | none => rw [alookup_append_right _ hd, hnone1]

/-- The final display of each key is the trimmed form of its first
occurrence among the values. -/
theorem display_processVals (ci : Bool) (vals : List Str) (k : Str) :
    FilterBySku.alookup (processVals ci vals).display k = firstDisplay ci vals k :=
  alookup_foldl_display ci vals ⟨[], [], []⟩ k (strongInv_nil ci)

/-- Every key in the final first-seen order has at least one occurrence. -/
theorem count_pos_of_mem_order (ci : Bool) (st : UState) (h : StrongInv ci st)
    (k : Str) (hk : k ∈ st.order) : 1 ≤ (clookup st.counts k).getD 0 := by
  obtain ⟨h1, -, -, h4, -⟩ := h
  have hmem : k ∈ keysOf st.counts := by rw [← h1]; exact hk
  cases hc : clookup st.counts k with
  | none => exact absurd ((clookup_eq_none _ _).mp hc) (fun f => f hmem)
  | some n => exact h4 (k, n) (clookup_mem hc)

end UniqueValues

namespace UniqueValues

/-- The exactly-once selection is the full selection filtered by the final
count of the normalized form of each emitted display value. -/
theorem selectValues_true_eq_filter (ci : Bool) (st : UState) (h : StrongInv ci st) :
    selectValues true st =
      (selectValues false st).filter
        (fun v => decide ((clookup st.counts (normCase ci v)).getD 0 = 1)) := by
  show (st.order.filter (fun k => decide ((clookup st.counts k).getD 0 = 1))).map
      (fun k => (FilterBySku.alookup st.display k).getD []) =
    (st.order.map (fun k => (FilterBySku.alookup st.display k).getD [])).filter
      (fun v => decide ((clookup st.counts (normCase ci v)).getD 0 = 1))
  rw [List.filter_map]
  congr 1
  apply List.filter_congr
  intro k hk
  obtain ⟨h1, h2, h3, h4, h5⟩ := h
  have hkd : k ∈ keysOf st.display := by rw [← h2]; exact hk
  obtain ⟨d, hd⟩ : ∃ d, FilterBySku.alookup st.display k = some d := by
    cases hx : FilterBySku.alookup st.display k with
    | none => exact absurd ((alookup_eq_none _ _).mp hx) (fun f => f hkd)
    | some d => exact ⟨d, rfl⟩
  show decide ((clookup st.counts k).getD 0 = 1) =
    decide ((clookup st.counts
      (normCase ci ((FilterBySku.alookup st.display k).getD []))).getD 0 = 1)
  rw [hd]
  show decide ((clookup st.counts k).getD 0 = 1) =
    decide ((clookup st.counts (normCase ci d)).getD 0 = 1)
  rw [(h5 (k, d) (alookup_mem hd)).1]

/-- Inversion of a successful `read_unique_values` run. -/
theorem read_unique_values_ok (file : UFile) (column : Option Str)
    (noHeader ci sortv eo : Bool) (vals vs : List Str)
    (hvals : resolveVals file column noHeader = .ok vals)
    (h : read_unique_values file column noHeader ci sortv eo = .ok vs) :
    vs = if sortv then sortValues ci (selectValues eo (processVals ci vals))
      else selectValues eo (processVals ci vals) := by
  unfold read_unique_values at h
  rw [hvals] at h
  exact (UResult.ok.inj h).symm

end UniqueValues

/-- C5: for every input and configuration of the uniqueness extractor, the
exactly-once output is a subsequence (hence a subset) of the full-unique
output, and its complement within the full-unique output consists exactly of
the display values of the keys whose total occurrence count exceeds 1. -/
theorem exactly_once_subset_law (file : UFile) (column : Option Str)
    (noHeader ci sortv : Bool) (vals v1 v0 : List Str)
    (hvals : resolveVals file column noHeader = .ok vals)
    (h1 : read_unique_values file column noHeader ci sortv true = .ok v1)
    (h0 : read_unique_values file column noHeader ci sortv false = .ok v0) :
    v1.Sublist v0 ∧
    (v0.filter (fun v => decide (v ∉ v1))).Perm
      (((processVals ci vals).order.filter
          (fun k => decide (1 < countOcc ci vals k))).map
        (fun k => (FilterBySku.alookup (processVals ci vals).display k).getD [])) := by
  have hsi : StrongInv ci (processVals ci vals) := strongInv_processVals ci vals
  have hBA := selectValues_true_eq_filter ci (processVals ci vals) hsi
  have htrans : ∀ a b c : Str,
      strLe (sortKey ci a) (sortKey ci b) = true →
      strLe (sortKey ci b) (sortKey ci c) = true →
      strLe (sortKey ci a) (sortKey ci c) = true :=
    fun a b c => strLe_trans _ _ _
  have htotal : ∀ a b : Str,
      (strLe (sortKey ci a) (sortKey ci b) || strLe (sortKey ci b) (sortKey ci a)) = true :=
    fun a b => strLe_total _ _
  have hv1 := read_unique_values_ok file column noHeader ci sortv true vals v1 hvals h1
  have hv0 := read_unique_values_ok file column noHeader ci sortv false vals v0 hvals h0
  have hfil : v1 = v0.filter
      (fun v => decide ((clookup (processVals ci vals).counts (normCase ci v)).getD 0 = 1)) := by
    cases sortv with
    | false =>
      rw [hv1, hv0]
      show selectValues true (processVals ci vals) = (selectValues false (processVals ci vals)).filter _
      exact hBA
    | true =>
      rw [hv1, hv0]
      show sortValues ci (selectValues true (processVals ci vals)) =
        (sortValues ci (selectValues false (processVals ci vals))).filter _
      unfold sortValues
      rw [hBA]
      exact mergeSort_filter htrans htotal _ (selectValues false (processVals ci vals))
  have hA : (selectValues false (processVals ci vals)).filter
      (fun v => !decide ((clookup (processVals ci vals).counts (normCase ci v)).getD 0 = 1)) =
      ((processVals ci vals).order.filter
        (fun k => decide (1 < countOcc ci vals k))).map
        (fun k => (FilterBySku.alookup (processVals ci vals).display k).getD []) := by
    show (((processVals ci vals).order.map
        (fun k => (FilterBySku.alookup (processVals ci vals).display k).getD [])).filter
        (fun v => !decide ((clookup (processVals ci vals).counts (normCase ci v)).getD 0 = 1))) = _
    rw [List.filter_map]
    congr 1
    apply List.filter_congr
    intro k hk
    obtain ⟨hh1, hh2, hh3, hh4, hh5⟩ := hsi
    have hkd : k ∈ keysOf (processVals ci vals).display := by rw [← hh2]; exact hk
    obtain ⟨d, hd⟩ : ∃ d, FilterBySku.alookup (processVals ci vals).display k = some d := by
      cases hx : FilterBySku.alookup (processVals ci vals).display k with
      | none => exact absurd ((alookup_eq_none _ _).mp hx) (fun f => f hkd)
      | some d => exact ⟨d, rfl⟩
    have hge : 1 ≤ (clookup (processVals ci vals).counts k).getD 0 :=
      count_pos_of_mem_order ci (processVals ci vals) ⟨hh1, hh2, hh3, hh4, hh5⟩ k hk
    have hcount := counts_processVals ci vals k
    show (!decide ((clookup (processVals ci vals).counts
        (normCase ci ((FilterBySku.alookup (processVals ci vals).display k).getD []))).getD 0 = 1)) =
      decide (1 < countOcc ci vals k)
    rw [hd]
    show (!decide ((clookup (processVals ci vals).counts (normCase ci d)).getD 0 = 1)) =
      decide (1 < countOcc ci vals k)
    rw [(hh5 (k, d) (alookup_mem hd)).1, hcount]
    rw [hcount] at hge
    by_cases he : countOcc ci vals k = 1
    · rw [he]
      simp
    · have hlt : 1 < countOcc ci vals k := by omega
      simp [he, hlt]
  refine ⟨?_, ?_⟩
  · rw [hfil]
    exact List.filter_sublist v0
  · have hmem : ∀ v ∈ v0, (decide (v ∉ v1)) =
        (!decide ((clookup (processVals ci vals).counts (normCase ci v)).getD 0 = 1)) := by
      intro v hv
      by_cases hgv : decide ((clookup (processVals ci vals).counts (normCase ci v)).getD 0 = 1) = true
      · have hin : v ∈ v1 := by
          rw [hfil]
          exact List.mem_filter.mpr ⟨hv, hgv⟩
        rw [hgv]
        simp [hin]
      · have hgv2 : decide ((clookup (processVals ci vals).counts (normCase ci v)).getD 0 = 1) = false := by
          cases hx : decide ((clookup (processVals ci vals).counts (normCase ci v)).getD 0 = 1)
          · rfl
          · exact absurd hx hgv
        have hout : v ∉ v1 := by
          rw [hfil]
          intro hmem2
          exact hgv (List.mem_filter.mp hmem2).2
        rw [hgv2]
        simp [hout]
    rw [List.filter_congr hmem]
    cases sortv with
    | false =>
      rw [hv0]
      show ((selectValues false (processVals ci vals)).filter _).Perm _
      rw [hA]
    | true =>
      rw [hv0]
      show ((sortValues ci (selectValues false (processVals ci vals))).filter _).Perm _
      unfold sortValues
      rw [← mergeSort_filter htrans htotal]
      refine (List.mergeSort_perm _ _).trans ?_
      rw [hA]

/-- C5 witness: scenario D instantiated — values a, b, a, c give full output
a, b, c and exactly-once output b, c; the complement is the display a, whose
key occurs twice. -/
theorem exactly_once_subset_law_witness :
    List.Sublist [str "b", str "c"] [str "a", str "b", str "c"] ∧
    (([str "a", str "b", str "c"].filter
        (fun v => decide (v ∉ [str "b", str "c"]))).Perm
      (((processVals false (dFile.drows.map (fun r => getv r (str "v")))).order.filter
          (fun k => decide (1 < countOcc false (dFile.drows.map (fun r => getv r (str "v"))) k))).map
        (fun k => (FilterBySku.alookup
          (processVals false (dFile.drows.map (fun r => getv r (str "v")))).display k).getD []))) :=
  exactly_once_subset_law dFile none false false false
    (dFile.drows.map (fun r => getv r (str "v")))
    [str "b", str "c"] [str "a", str "b", str "c"]
    rfl (by decide) (by decide)

/-- C4: with `sortAscending`, the uniqueness output is a permutation of the
unsorted output that is sorted by the case-folded sort key (the raw display
when not case-insensitive), sort-key ties keep their first-seen relative
order, the display recorded for each key is the trimmed original form of its
first occurrence, and scenario E holds: values B, a, b with case-insensitive
sort yield a, B. -/
theorem unique_sorted_stable (file : UFile) (column : Option Str)
    (noHeader ci eo : Bool) (vals vs vu : List Str)
    (hvals : resolveVals file column noHeader = .ok vals)
    (hs : read_unique_values file column noHeader ci true eo = .ok vs)
    (hu : read_unique_values file column noHeader ci false eo = .ok vu) :
    vs.Perm vu ∧
    vs.Pairwise (fun a b => strLe (sortKey ci a) (sortKey ci b) = true) ∧
    (∀ a b, List.Sublist [a, b] vu → sortKey ci a = sortKey ci b →
      List.Sublist [a, b] vs) ∧
    (∀ k, FilterBySku.alookup (processVals ci vals).display k = firstDisplay ci vals k) ∧
    read_unique_values eFile none true true true false = .ok [str "a", str "B"] := by
  have hvs := read_unique_values_ok file column noHeader ci true eo vals vs hvals hs
  have hvu := read_unique_values_ok file column noHeader ci false eo vals vu hvals hu
  rw [if_pos rfl] at hvs
  rw [if_neg (fun hx => Bool.noConfusion hx)] at hvu
  have htrans : ∀ a b c : Str,
      strLe (sortKey ci a) (sortKey ci b) = true →
      strLe (sortKey ci b) (sortKey ci c) = true →
      strLe (sortKey ci a) (sortKey ci c) = true :=
    fun a b c => strLe_trans _ _ _
  have htotal : ∀ a b : Str,
      (strLe (sortKey ci a) (sortKey ci b) || strLe (sortKey ci b) (sortKey ci a)) = true :=
    fun a b => strLe_total _ _
  refine ⟨?_, ?_, ?_, ?_, ?_⟩
  · rw [hvs, hvu]
    exact List.mergeSort_perm _ _
  · rw [hvs]
    exact List.sorted_mergeSort htrans htotal _
  · intro a b hab heq
    rw [hvs]
    rw [hvu] at hab
    refine List.pair_sublist_mergeSort htrans htotal ?_ hab
    show strLe (sortKey ci a) (sortKey ci b) = true
    rw [heq]
    exact strLe_refl _
  · exact fun k => display_processVals ci vals k
  · have hsel : selectValues false (processVals true (firstColVals eFile.rrows)) =
        [str "B", str "a"] := by decide
    have hsort : sortValues true [str "B", str "a"] = [str "a", str "B"] := by
      simp [sortValues, List.mergeSort, List.merge]
      decide
    show UResult.ok (sortValues true
      (selectValues false (processVals true (firstColVals eFile.rrows)))) = _
    rw [hsel, hsort]

/-- C4 witness: scenario E instantiated — the sorted case-insensitive run on
values B, a, b emits a, B, a permutation of the unsorted output B, a, sorted
by folded key with ties in first-seen order and first-seen displays. -/
theorem unique_sorted_stable_witness :
    List.Perm [str "a", str "B"] [str "B", str "a"] ∧
    List.Pairwise (fun a b => strLe (sortKey true a) (sortKey true b) = true)
      [str "a", str "B"] ∧
    (∀ a b, List.Sublist [a, b] [str "B", str "a"] → sortKey true a = sortKey true b →
      List.Sublist [a, b] [str "a", str "B"]) ∧
    (∀ k, FilterBySku.alookup
        (processVals true [str "B", str "a", str "b"]).display k =
      firstDisplay true [str "B", str "a", str "b"] k) ∧
    read_unique_values eFile none true true true false = .ok [str "a", str "B"] :=
  unique_sorted_stable eFile none true true false [str "B", str "a", str "b"]
    [str "a", str "B"] [str "B", str "a"] rfl
    (by
      have hsel : selectValues false (processVals true (firstColVals eFile.rrows)) =
          [str "B", str "a"] := by decide
      have hsort : sortValues true [str "B", str "a"] = [str "a", str "B"] := by
        simp [sortValues, List.mergeSort, List.merge]
        decide
      show UResult.ok (sortValues true
        (selectValues false (processVals true (firstColVals eFile.rrows)))) = _
      rw [hsel, hsort])
    (by decide)
